import Mathlib

/-!
Verification of core components of the zcpm CP/M 2.2 emulator.

The C++ sources are shallowly embedded: machine integers (`uint8_t`,
`uint16_t`) are represented by `Nat` with explicit `% 256` / `% 65536`
truncation at the points where the C++ types truncate, guest memory is a
function `Nat → Nat` holding byte values, and code that throws C++
exceptions is represented with `Except`, where the error value carries the
message together with the state at the moment of the throw (a C++ exception
leaves the object in exactly that state).

Trace logging (`BOOST_LOG_TRIVIAL`, `std::cout`) has no effect on the
modelled state and is not represented.
-/

namespace ZCPM

/-- Memory access mode, mirroring `Hardware::Access` in `hardware.hpp`. -/
inductive Access where
  | read : Access
  | write : Access
deriving DecidableEq

/-- State of `zcpm::Hardware` (from `src/core/hardware.cpp`) as far as the
memory fabric is concerned: the 64 KiB byte array `m_memory`, the two watch
sets (modelled as characteristic functions), the two check-enable flags and
the BIOS region owned by `m_pbios` (`none` before `set_fbase_and_wboot`
constructs the BIOS; `some (discovered_base, stubs_top)` afterwards, which
is what `Bios::is_bios` compares against). -/
structure Hardware where
  mem : Nat → Nat
  watch_read : Nat → Bool
  watch_write : Nat → Bool
  enable_memory_checks : Bool
  check_memory_accesses : Bool
  bios : Option (Nat × Nat)

namespace Hardware

/-- `is_fatal_write` from the anonymous namespace of `hardware.cpp`:
writes to the warm-start vector 0x0000..0x0002 or the BDOS jump vector
0x0005..0x0007 are fatal. -/
def is_fatal_write (address : Nat) : Bool :=
  if address ≤ 0x0002 then
    true
  else if 0x0005 ≤ address ∧ address ≤ 0x0007 then
    true
  else
    false

/-- `Bios::is_bios` from `bios.cpp`: the address lies in
`[m_discovered_base, m_stubs_top]`. -/
def bios_contains (hw : Hardware) (address : Nat) : Bool :=
  match hw.bios with
  | none => false
  | some b => decide (b.1 ≤ address ∧ address ≤ b.2)

/-- `Hardware::check_watched_memory_byte`.  Returns the message of the
exception it throws, if any.  The two watch-hit branches only emit a trace
line; the function throws exactly when a write hits the write-watch set at
an address classified fatal by `is_fatal_write`, or when a write lands in
the BIOS region.  Both checks are skipped unless both
`m_enable_memory_checks` and `m_check_memory_accesses` are set.
`address` is a `uint16_t` parameter, already reduced below 65536 by the
caller. -/
def check_watched_memory_byte (hw : Hardware) (address : Nat) (mode : Access) :
    Option String :=
  if !hw.enable_memory_checks || !hw.check_memory_accesses then
    none
  else if mode = .write && hw.watch_write address && is_fatal_write address then
    some "Aborting: illegal memory write"
  else if mode = .write && bios_contains hw address then
    some "BIOS tampering!"
  else
    none

/-- `Hardware::read_byte(uint16_t) const`: returns `m_memory[address]`.
The watch check on the read path can only log, never throw.  The `% 65536`
is the `uint16_t` parameter conversion, the `% 256` the `uint8_t` content
of `m_memory`. -/
def read_byte (hw : Hardware) (address : Nat) : Nat :=
  hw.mem (address % 65536) % 256

/-- `Hardware::read_word(uint16_t) const`: little-endian pair of byte
reads, the high byte taken at `(address + 1) & 0xffff`. -/
def read_word (hw : Hardware) (address : Nat) : Nat :=
  let result_low := hw.mem (address % 65536) % 256
  let result_high := hw.mem ((address + 1) % 65536) % 256
  result_low ||| (result_high <<< 8)

/-- `Hardware::write_byte(uint16_t, uint8_t)`: run
`check_watched_memory_byte` first; only if it does not throw, store the
byte. -/
def write_byte (hw : Hardware) (address x : Nat) : Except (String × Hardware) Hardware :=
  let a := address % 65536
  match check_watched_memory_byte hw a .write with
  | some msg => .error (msg, hw)
  | none => .ok { hw with mem := fun i => if i = a then x % 256 else hw.mem i }

end Hardware

/-- C5: for every 16-bit address, `Hardware::read_word(addr)` equals
`read_byte(addr) | (read_byte((addr+1) & 0xFFFF) << 8)`: 16-bit guest
reads are little-endian with wrap-around at the top of the 64 KiB space. -/
theorem read_word_is_little_endian_byte_pair (hw : Hardware) (address : Nat) :
    hw.read_word address =
      hw.read_byte address ||| (hw.read_byte ((address + 1) % 65536) <<< 8) := by
  simp only [Hardware.read_word, Hardware.read_byte]
  rw [Nat.mod_mod_of_dvd _ dvd_rfl]

/-- C9: with memory checks enabled (both flags), a write to the warm-start
vector 0x0000..0x0002, to the BDOS jump vector 0x0005..0x0007 (page zero
being write-watched, as installed by the `Hardware` constructor) or to the
rewritten BIOS region returns an error whose carried state is the original
`hw` unchanged: the check-and-throw happens before the store, so the failed
write mutates nothing. -/
theorem write_byte_fatal_is_atomic (hw : Hardware) (address v : Nat)
    (hen : hw.enable_memory_checks = true)
    (hchk : hw.check_memory_accesses = true)
    (haddr : address < 65536)
    (hpz : ∀ a, a < 0x100 → hw.watch_write a = true)
    (hfatal : address ≤ 0x0002 ∨ (0x0005 ≤ address ∧ address ≤ 0x0007) ∨
      hw.bios_contains address = true) :
    ∃ msg, hw.write_byte address v = .error (msg, hw) := by
  have hmod : address % 65536 = address := Nat.mod_eq_of_lt haddr
  unfold Hardware.write_byte
  rw [hmod]
  unfold Hardware.check_watched_memory_byte
  rw [hen, hchk]
  rcases hfatal with h | h | h
  · have hw1 : hw.watch_write address = true := hpz address (by omega)
    have hf : Hardware.is_fatal_write address = true := by
      unfold Hardware.is_fatal_write
      simp [h]
    simp [hw1, hf]
  · have hw1 : hw.watch_write address = true := hpz address (by omega)
    have hf : Hardware.is_fatal_write address = true := by
      unfold Hardware.is_fatal_write
      rcases Nat.lt_or_ge address 3 with h3 | h3
      · simp [Nat.lt_succ_iff.mp h3]
      · have : ¬ address ≤ 2 := by omega
        simp [this, h]
    simp [hw1, hf]
  · cases hww : hw.watch_write address with
    | false => simp [hww, h]
    | true =>
      cases hf : Hardware.is_fatal_write address with
      | false => simp [hww, hf, h]
      | true => simp [hww, hf]

/-- A concrete `Hardware` used to witness `write_byte_fatal_is_atomic`. -/
def hwWitness : Hardware where
  mem := fun _ => 0
  watch_read := fun a => decide (a < 0x100)
  watch_write := fun a => decide (a < 0x100)
  enable_memory_checks := true
  check_memory_accesses := true
  bios := some (0xF200, 0xF220)

/-- Witness for C9 at the concrete input `address = 0`, `v = 7`. -/
theorem write_byte_fatal_is_atomic_witness :
    (hwWitness.enable_memory_checks = true ∧ hwWitness.check_memory_accesses = true ∧
      (0 : Nat) < 65536 ∧ (0 : Nat) ≤ 0x0002) ∧
    ∃ msg, hwWitness.write_byte 0 7 = .error (msg, hwWitness) :=
  ⟨⟨rfl, rfl, by decide, by decide⟩,
    write_byte_fatal_is_atomic hwWitness 0 7 rfl rfl (by decide)
      (fun a ha => by simp [hwWitness]; omega) (Or.inl (by decide))⟩

/-! ## Byte recombination helper -/

/-- A byte below 256 or-ed with a value shifted left by 8 recombines
additively. -/
theorem lor_byte_shift (lo hi : Nat) (h : lo < 256) :
    lo ||| (hi <<< 8) = lo + 256 * hi := by
  have h2 : lo < 2 ^ 8 := by simpa using h
  have h3 := Nat.mul_add_lt_is_or h2 hi
  rw [Nat.shiftLeft_eq, Nat.lor_comm, Nat.mul_comm, ← h3]
  omega

/-! ## Debug actions (`src/core/debugaction.cpp`) -/

/-- The state of a `zcpm::PassPoint`: the immutable trigger address and the
mutable `m_remaining` counter (a `uint16_t`; it is only ever decremented
when nonzero, so it stays below 65536 and `Nat` represents it exactly). -/
structure PassPoint where
  m_address : Nat
  m_remaining : Nat
deriving DecidableEq

/-- `PassPoint::evaluate(address)`: on a match, return `false` when
`m_remaining` is already zero (without touching it, thanks to the
short-circuit in `(m_remaining == 0) || (--m_remaining == 0)`), otherwise
decrement it and return `false` exactly when it has now reached zero.  On
a non-match return `true` and change nothing.  The pair returned is
(result, passpoint state after the call). -/
def PassPoint.evaluate (p : PassPoint) (address : Nat) : Bool × PassPoint :=
  if p.m_address = address then
    if p.m_remaining = 0 then
      (false, p)
    else
      let r := p.m_remaining - 1
      if r = 0 then (false, { p with m_remaining := r })
      else (true, { p with m_remaining := r })
  else
    (true, p)

/-- A whole sequence of `evaluate` calls against one passpoint, returning
the list of results and the final state. -/
def PassPoint.evaluate_seq (p : PassPoint) : List Nat → List Bool × PassPoint
  | [] => ([], p)
  | pc :: rest =>
    let r1 := p.evaluate pc
    let r2 := r1.2.evaluate_seq rest
    (r1.1 :: r2.1, r2.2)

/-- C6: a non-matching call returns `true` and leaves the counter alone; a
matching call decrements the counter (`Nat` subtraction, which keeps an
exhausted counter at zero exactly as the C++ short-circuit does) and
returns `false` precisely when the counter has reached zero — so every
earlier matching call returns `true`; and over any call sequence the
counter decreases by the number of matches, saturating at zero. -/
theorem passpoint_evaluate_spec (a r pc : Nat) :
    (pc ≠ a → PassPoint.evaluate ⟨a, r⟩ pc = (true, ⟨a, r⟩)) ∧
    (pc = a →
      PassPoint.evaluate ⟨a, r⟩ pc = (decide (r - 1 ≠ 0), ⟨a, r - 1⟩)) ∧
    (∀ pcs : List Nat,
      (PassPoint.evaluate_seq ⟨a, r⟩ pcs).2 = ⟨a, r - pcs.count a⟩) := by
  refine ⟨?_, ?_, ?_⟩
  · intro h
    have h2 : a ≠ pc := fun hc => h hc.symm
    simp [PassPoint.evaluate, h2]
  · intro h
    subst h
    match r with
    | 0 => simp [PassPoint.evaluate]
    | 1 => simp [PassPoint.evaluate]
    | n + 2 => simp [PassPoint.evaluate]
  · intro pcs
    induction pcs generalizing r with
    | nil => simp [PassPoint.evaluate_seq]
    | cons pc rest ih =>
      by_cases h : a = pc
      · subst h
        match r with
        | 0 =>
          simp [PassPoint.evaluate_seq, PassPoint.evaluate, ih, List.count_cons]
        | 1 =>
          simp [PassPoint.evaluate_seq, PassPoint.evaluate, ih, List.count_cons]
        | n + 2 =>
          have hs : PassPoint.evaluate ⟨a, n + 2⟩ a = (true, ⟨a, n + 1⟩) := by
            simp [PassPoint.evaluate]
          simp [PassPoint.evaluate_seq, hs, ih, List.count_cons]
      · have h2 : pc ≠ a := fun hc => h hc.symm
        simp only [PassPoint.evaluate_seq, PassPoint.evaluate, if_neg h]
        simp [ih, List.count_cons, h2]

/-- Witness for C6: a passpoint at address 5 with 2 remaining passes;
a non-matching call, then two matching calls, the second of which fires. -/
theorem passpoint_evaluate_spec_witness :
    PassPoint.evaluate ⟨5, 2⟩ 6 = (true, ⟨5, 2⟩) ∧
    PassPoint.evaluate ⟨5, 2⟩ 5 = (true, ⟨5, 1⟩) ∧
    PassPoint.evaluate ⟨5, 1⟩ 5 = (false, ⟨5, 0⟩) ∧
    (PassPoint.evaluate_seq ⟨5, 2⟩ [6, 5, 5, 5]).2 = ⟨5, 0⟩ :=
  ⟨(passpoint_evaluate_spec 5 2 6).1 (by decide),
    by have h := (passpoint_evaluate_spec 5 2 5).2.1 rfl; simpa using h,
    by have h := (passpoint_evaluate_spec 5 1 5).2.1 rfl; simpa using h,
    by have h := (passpoint_evaluate_spec 5 2 0).2.2 [6, 5, 5, 5]; simpa using h⟩

/-! ## Processor interrupts (`src/core/processor.cpp`) -/

/-- The interrupt mode, `Processor::InterruptMode`. -/
inductive InterruptMode where
  | im0 : InterruptMode
  | im1 : InterruptMode
  | im2 : InterruptMode
deriving DecidableEq

/-- The slice of `zcpm::Processor` state touched by `interrupt`: the guest
memory seen through the `IMemory` interface, the interrupt flip-flops
(ints in the source, 0 = clear), the refresh and interrupt-vector
registers (`uint8_t`), PC, SP and the interrupt mode. -/
structure ProcState where
  mem : Nat → Nat
  m_iff1 : Nat
  m_iff2 : Nat
  m_r : Nat
  m_i : Nat
  m_pc : Nat
  m_sp : Nat
  m_im : InterruptMode

/-- `Hardware::write_word` as seen through `IMemory`: store the low byte at
`address`, then the high byte at `(address + 1) & 0xffff`. -/
def mem_write_word (mem : Nat → Nat) (address x : Nat) : Nat → Nat :=
  let a := address % 65536
  let lo := x % 65536 % 256
  let hi := (x % 65536) >>> 8
  fun i => if i = (a + 1) % 65536 then hi else if i = a then lo else mem i

/-- `Hardware::read_word` as seen through `IMemory` (little-endian pair of
byte reads). -/
def mem_read_word (mem : Nat → Nat) (address : Nat) : Nat :=
  (mem (address % 65536) % 256) ||| ((mem ((address + 1) % 65536) % 256) <<< 8)

/-- The R-register bump performed on interrupt acceptance:
`m_r = (m_r & 0x80) | ((m_r + 1) & 0x7f)` on a `uint8_t`. -/
def r_bump (r : Nat) : Nat :=
  (r % 256 &&& 0x80) ||| ((r % 256 + 1) &&& 0x7F)

/-- `Processor::interrupt(uint8_t data_on_bus)`.  If IFF1 is clear, do
nothing and return 0 cycles.  Otherwise clear both IFFs, bump R and
dispatch on the mode: IM0 feeds `data_on_bus` to the full instruction
emulator (`emulate(data_on_bus, false, 2, 4)`), which is passed in here as
the function `emu`; IM1 pushes PC and jumps to 0x0038 for 13 cycles; IM2
pushes PC, reads the vector from `I:data_on_bus` and jumps for 19
cycles. -/
def Processor.interrupt (emu : Nat → ProcState → ProcState × Nat)
    (st : ProcState) (data_on_bus : Nat) : ProcState × Nat :=
  if st.m_iff1 ≠ 0 then
    let st1 := { st with m_iff1 := 0, m_iff2 := 0, m_r := r_bump st.m_r }
    match st1.m_im with
    | .im0 => emu (data_on_bus % 256) st1
    | .im1 =>
      let sp1 := (st1.m_sp + 65536 - 2) % 65536
      ({ st1 with
          m_sp := sp1
          mem := mem_write_word st1.mem sp1 st1.m_pc
          m_pc := 0x0038 }, 13)
    | .im2 =>
      let sp1 := (st1.m_sp + 65536 - 2) % 65536
      let mem1 := mem_write_word st1.mem sp1 st1.m_pc
      let vector := ((st1.m_i % 256) <<< 8) ||| (data_on_bus % 256)
      ({ st1 with
          m_sp := sp1
          mem := mem1
          m_pc := mem_read_word mem1 vector }, 19)
  else
    (st, 0)

/-- Reading back the word just written by `mem_write_word` at the same
address recovers the written 16-bit value. -/
theorem mem_read_write_word (mem : Nat → Nat) (address x : Nat)
    (ha : address < 65536) :
    mem_read_word (mem_write_word mem address x) address = x % 65536 := by
  have hne : address ≠ (address + 1) % 65536 := by omega
  have hmod : address % 65536 = address := Nat.mod_eq_of_lt ha
  have hhiLt : (x % 65536) >>> 8 < 256 := by
    rw [Nat.shiftRight_eq_div_pow]
    omega
  have hloLt : x % 65536 % 256 < 256 := Nat.mod_lt _ (by omega)
  simp only [mem_read_word, mem_write_word, hmod, if_neg hne, if_pos rfl,
    eq_self_iff_true, if_true]
  rw [Nat.mod_mod_of_dvd _ dvd_rfl, Nat.mod_eq_of_lt hhiLt]
  rw [lor_byte_shift _ _ hloLt]
  rw [Nat.shiftRight_eq_div_pow]
  omega

/-- The state produced by accepting an IM1 interrupt (used to phrase the
proof of `interrupt_spec`). -/
def im1_state (st : ProcState) : ProcState :=
  { st with
    m_iff1 := 0
    m_iff2 := 0
    m_r := r_bump st.m_r
    m_sp := (st.m_sp + 65536 - 2) % 65536
    mem := mem_write_word st.mem ((st.m_sp + 65536 - 2) % 65536) st.m_pc
    m_pc := 0x0038 }

/-- The state produced by accepting an IM2 interrupt. -/
def im2_state (st : ProcState) (b : Nat) : ProcState :=
  { st with
    m_iff1 := 0
    m_iff2 := 0
    m_r := r_bump st.m_r
    m_sp := (st.m_sp + 65536 - 2) % 65536
    mem := mem_write_word st.mem ((st.m_sp + 65536 - 2) % 65536) st.m_pc
    m_pc := mem_read_word
      (mem_write_word st.mem ((st.m_sp + 65536 - 2) % 65536) st.m_pc)
      (((st.m_i % 256) <<< 8) ||| (b % 256)) }

/-- C4: `Processor::interrupt(b)` with IFF1 clear changes no state and
returns 0 cycles.  With IFF1 set it clears both IFF flags and bumps R;
in IM1 it pushes PC (the word at the decremented SP reads back as the old
PC), jumps to 0x0038 and returns 13 cycles; in IM2 it pushes PC, loads PC
from the word at address `(I << 8) | b` and returns 19 cycles. -/
theorem interrupt_spec (emu : Nat → ProcState → ProcState × Nat)
    (st : ProcState) (b : Nat) :
    (st.m_iff1 = 0 → Processor.interrupt emu st b = (st, 0)) ∧
    (st.m_iff1 ≠ 0 → st.m_im = .im1 →
      ∃ st2, Processor.interrupt emu st b = (st2, 13) ∧
        st2.m_iff1 = 0 ∧ st2.m_iff2 = 0 ∧ st2.m_r = r_bump st.m_r ∧
        st2.m_pc = 0x0038 ∧ st2.m_sp = (st.m_sp + 65536 - 2) % 65536 ∧
        mem_read_word st2.mem st2.m_sp = st.m_pc % 65536) ∧
    (st.m_iff1 ≠ 0 → st.m_im = .im2 →
      ∃ st2, Processor.interrupt emu st b = (st2, 19) ∧
        st2.m_iff1 = 0 ∧ st2.m_iff2 = 0 ∧ st2.m_r = r_bump st.m_r ∧
        st2.m_sp = (st.m_sp + 65536 - 2) % 65536 ∧
        mem_read_word st2.mem st2.m_sp = st.m_pc % 65536 ∧
        st2.m_pc =
          mem_read_word st2.mem (((st.m_i % 256) <<< 8) ||| (b % 256))) := by
  have hsp1 : (st.m_sp + 65536 - 2) % 65536 < 65536 := Nat.mod_lt _ (by omega)
  refine ⟨?_, ?_, ?_⟩
  · intro h
    simp [Processor.interrupt, h]
  · intro h him
    have hstep : Processor.interrupt emu st b = (im1_state st, 13) := by
      simp [Processor.interrupt, im1_state, h, him]
    exact ⟨_, hstep, rfl, rfl, rfl, rfl, rfl, mem_read_write_word _ _ _ hsp1⟩
  · intro h him
    have hstep : Processor.interrupt emu st b = (im2_state st b, 19) := by
      simp [Processor.interrupt, im2_state, h, him]
    exact ⟨_, hstep, rfl, rfl, rfl, rfl,
      mem_read_write_word _ _ _ hsp1, rfl⟩

/-- A trivial stand-in for the full instruction emulator, used only to
instantiate the `emu` parameter in the witness (the IM0 branch is not
exercised). -/
def emuStub : Nat → ProcState → ProcState × Nat := fun _ s => (s, 0)

/-- A concrete processor state for the C4 witness. -/
def procWitness : ProcState where
  mem := fun _ => 0
  m_iff1 := 1
  m_iff2 := 1
  m_r := 0x85
  m_i := 0x20
  m_pc := 0x1234
  m_sp := 0xF000
  m_im := .im1

/-- Witness for C4: IFF1 set, IM1, at a concrete state. -/
theorem interrupt_spec_witness :
    (procWitness.m_iff1 ≠ 0 ∧ procWitness.m_im = .im1) ∧
    ∃ st2, Processor.interrupt emuStub procWitness 0x40 = (st2, 13) ∧
      st2.m_iff1 = 0 ∧ st2.m_iff2 = 0 ∧ st2.m_r = r_bump procWitness.m_r ∧
      st2.m_pc = 0x0038 ∧
      st2.m_sp = (procWitness.m_sp + 65536 - 2) % 65536 ∧
      mem_read_word st2.mem st2.m_sp = procWitness.m_pc % 65536 :=
  ⟨⟨by decide, rfl⟩,
    (interrupt_spec emuStub procWitness 0x40).2.1 (by decide) rfl⟩

/-! ## Disk (`src/core/disk.cpp`)

Strings (file names, 11-character CP/M names) are modelled as lists of
byte values.  The host filesystem visible to the disk layer is modelled as
a lookup from raw file name to file content.  `m_next_block` is a
`uint16_t` that is post-incremented on every allocation; the allocation
loops below carry the unbounded count of increments as a `Nat` and reduce
`% 65536` at every point where the C++ counter value is observed. -/

namespace Disk

def SectorSize : Nat := 0x0080
def BSH : Nat := 0x04
def BLM : Nat := 0x0F
def EntrySize : Nat := 0x0020
def BlockSize : Nat := 0x0800
def SectorsPerBlock : Nat := BlockSize / SectorSize

/-- A disk sector: 128 byte values. -/
abbrev SectorData := List Nat

/-- ASCII upper-casing of one byte (`boost::to_upper_copy` on ASCII). -/
def upper_byte (c : Nat) : Nat :=
  if 97 ≤ c ∧ c ≤ 122 then c - 32 else c

/-- ASCII lower-casing of one byte (`boost::to_lower_copy` on ASCII). -/
def lower_byte (c : Nat) : Nat :=
  if 65 ≤ c ∧ c ≤ 90 then c + 32 else c

/-- `boost::trim_right_copy`: drop trailing spaces. -/
def trim_right (s : List Nat) : List Nat :=
  (s.reverse.dropWhile (fun c => c = 32)).reverse

/-- `convert(filename, extension)` from the anonymous namespace of
`disk.cpp`: build the 11-character space-padded upper-case CP/M name from
a stem and an extension (whose leading dot, if present, is skipped). -/
def convert (filename extension : List Nat) : List Nat :=
  let f := (filename.take 8).map upper_byte
  let has_dot := decide (extension ≠ [] ∧ extension.headD 0 = 46)
  let e := (((extension.drop (if has_dot then 1 else 0)).take 3).map upper_byte)
  (f ++ List.replicate (8 - f.length) 32) ++ (e ++ List.replicate (3 - e.length) 32)

/-- `track_sector_to_block_and_offset`: map a track/sector to a block
number and the sector index within that block.  The intermediate `n` is
computed in `int` (no overflow for `uint16_t` inputs); the returned block
is a `uint16_t` and the offset a `uint8_t`. -/
def track_sector_to_block_and_offset (track sector : Nat) : Nat × Nat :=
  let n := track * SectorSize + sector
  ((n >>> BSH) % 65536, (n &&& BLM) % 256)

/-- A host regular file as seen by `build_directory`: its file name, the
`std::filesystem` stem/extension split of that name, and its size in
bytes. -/
structure HostFile where
  filename : List Nat
  stem : List Nat
  extension : List Nat
  size : Nat

/-- The byte string "zcpm.log", which `build_directory` skips. -/
def zcpm_log_name : List Nat := [122, 99, 112, 109, 46, 108, 111, 103]

/-- A directory entry (`zcpm::Entry`). -/
structure Entry where
  m_raw_name : List Nat
  m_name : List Nat
  m_exists : Bool
  m_size : Nat
  m_sectors : Nat
  m_extent : Nat
  m_first_block : Nat
  m_blocks : List Nat
  m_modified : Bool
deriving DecidableEq

/-- The `Entry` host-file constructor: `Entry(e, extent, sectors,
first_block)`.  `extent` is a `uint8_t` parameter and `sectors` a
`uint16_t` parameter (already truncated by the caller); `m_sectors` is
capped at 0x80.  `m_blocks` starts empty and is filled by the caller. -/
def Entry.fromHost (item : HostFile) (extent sectors first_block : Nat) : Entry where
  m_raw_name := item.filename
  m_name := convert item.stem item.extension
  m_exists := true
  m_size := item.size
  m_sectors := min sectors 0x80
  m_extent := extent
  m_first_block := first_block
  m_blocks := []
  m_modified := false

/-- Read one byte of a directory-entry buffer (`uint8_t` content). -/
def bufGet (buffer : List Nat) (i : Nat) : Nat :=
  buffer.getD i 0 % 256

/-- The `Entry` buffer constructor: `Entry(const uint8_t*)`, parsing a
32-byte pending directory entry written by the guest BDOS.  `m_modified`
is set because such an entry must be flushed on shutdown. -/
def Entry.fromBuffer (buffer : List Nat) : Entry where
  m_raw_name :=
    (trim_right ((List.range 8).map (fun i => bufGet buffer (1 + i))) ++ [46] ++
      trim_right ((List.range 3).map (fun i => bufGet buffer (9 + i)))).map lower_byte
  m_name := (List.range 11).map (fun i => bufGet buffer (1 + i))
  m_exists := bufGet buffer 0 ≠ 0xE5
  m_size := 0
  m_sectors := bufGet buffer 0x0F
  m_extent := bufGet buffer 0x0C
  m_first_block := 0
  m_blocks :=
    ((List.range 8).map
      (fun i => bufGet buffer (0x10 + i * 2) ||| (bufGet buffer (0x10 + i * 2 + 1) <<< 8))).filter
      (fun block => 0 < block)
  m_modified := true

/-- A cached sector (`zcpm::SectorInfo`): data plus dirty flag. -/
structure SectorInfo where
  m_data : SectorData
  m_dirty : Bool

/-- The state of `Disk::Private`: the live directory entries, the sector
cache keyed by (track, sector), the block-allocation counter (the
`uint16_t` value, kept below 65536) and the host filesystem (raw file
name to content bytes). -/
structure DiskState where
  m_entries : List Entry
  m_sector_cache : Nat × Nat → Option SectorInfo
  m_next_block : Nat
  m_host : List Nat → Option (List Nat)

/-- One extent-allocation step of `build_directory`'s inner loop:
`count` extents remain to be created, `idx` is the running extent number,
`rem` the remaining sector count (a `size_t`), `nb` the running count of
block allocations (the live `uint16_t` counter is `nb % 65536`).
Each created entry receives `min(uint16(rem), 0x80)` sectors and
`ceil(m_sectors / 16)` freshly allocated blocks. -/
def extentLoop (item : HostFile) (first_block : Nat) :
    Nat → Nat → Nat → Nat → List Entry × Nat
  | 0, _idx, _rem, nb => ([], nb)
  | count + 1, idx, rem, nb =>
    let e0 := Entry.fromHost item (idx % 256) (rem % 65536) first_block
    let num_blocks := (e0.m_sectors + SectorsPerBlock - 1) / SectorsPerBlock
    let e := { e0 with m_blocks := (List.range num_blocks).map (fun j => (nb + j) % 65536) }
    let rest := extentLoop item first_block count (idx + 1) (rem - e.m_sectors) (nb + num_blocks)
    (e :: rest.1, rest.2)

/-- `Disk::Private::build_directory`, over the host directory scan given
as a list of regular files in iteration order.  A file of `bytes` bytes
occupies `ceil(bytes / 16384)` extents; "zcpm.log" is skipped.  Returns
the entries and the final block-allocation count (the counter value is
that count `% 65536`). -/
def build_directory : List HostFile → Nat → List Entry × Nat
  | [], nb => ([], nb)
  | item :: rest, nb =>
    if item.filename ≠ zcpm_log_name then
      let extent_size := 0x0080 * 0x0080
      let num_entries := (item.size + extent_size - 1) / extent_size
      let first_block := nb % 65536
      let remaining_sectors := (item.size + SectorSize - 1) / SectorSize
      let this_file := extentLoop item first_block num_entries 0 remaining_sectors nb
      let others := build_directory rest this_file.2
      (this_file.1 ++ others.1, others.2)
    else
      build_directory rest nb

/-- `Disk::Private::format_directory_entry(base, n)`: render the `n`-th
directory entry as 32 bytes; out-of-range `n` renders as 0xE5-filled
(inactive). -/
def format_directory_entry (st : DiskState) (n : Nat) : List Nat :=
  if h : n < st.m_entries.length then
    let f := st.m_entries.get ⟨n, h⟩
    let user := 0x00
    [if f.m_exists then user else 0xE5] ++
      (List.range 11).map (fun i => f.m_name.getD i 0 % 256) ++
      [f.m_extent &&& 0x1F, 0x00, (f.m_extent >>> 5) &&& 0xFF, f.m_sectors % 256] ++
      (List.range 8).flatMap (fun i =>
        if hi : i < f.m_blocks.length then
          [f.m_blocks.get ⟨i, hi⟩ &&& 0xFF, (f.m_blocks.get ⟨i, hi⟩ >>> 8) &&& 0xFF]
        else
          [0x00, 0x00])
  else
    List.replicate 32 0xE5

/-- `Disk::Private::create_directory_entries`: synthesise the four
32-byte directory entries selected by (track, sector). -/
def create_directory_entries (st : DiskState) (track sector : Nat) : SectorData :=
  let index := (track * SectorSize + sector) * 4
  (List.range (SectorSize / EntrySize)).flatMap
    (fun i => format_directory_entry st (index + i))

/-- `Disk::Private::read_disk_data`: convert (track, sector) to a block,
find the owning entry by brute-force search, and read the 128-byte chunk
from the host file.  A missing owner leaves the caller's buffer as it was;
a file the host cannot open raises.  (An inconsistent directory in which
the located block precedes the entry's first block is modelled with a
saturating offset; no claim depends on that case.) -/
def read_disk_data (st : DiskState) (buffer : SectorData) (track sector : Nat) :
    Except String SectorData :=
  let bo := track_sector_to_block_and_offset track sector
  match st.m_entries.find? (fun f => f.m_blocks.contains bo.1) with
  | some f =>
    let chunk := ((bo.1 - f.m_first_block) <<< BSH) + bo.2
    match st.m_host f.m_raw_name with
    | some content =>
      let got := (content.drop (chunk * SectorSize)).take SectorSize
      .ok (got ++ buffer.drop got.length)
    | none => .error "File open failed"
  | none => .ok buffer

/-- `Disk::Private::write_disk_data`: upsert the sector into the cache
with the dirty bit set. -/
def write_disk_data (st : DiskState) (buffer : SectorData) (track sector : Nat) :
    DiskState :=
  match st.m_sector_cache (track, sector) with
  | some _ =>
    { st with m_sector_cache := fun l =>
        if l = (track, sector) then some ⟨buffer, true⟩ else st.m_sector_cache l }
  | none =>
    { st with m_sector_cache := fun l =>
        if l = (track, sector) then some ⟨buffer, true⟩ else st.m_sector_cache l }

/-- One walk of `m_entries` for an active pending entry, mirroring the
`for (auto& e : m_entries)` loop of `check_for_directory_changes`: the
first entry matching one of the three conditions is acted upon and the
walk stops.  Returns the updated entries, whether a match was found and
the updated allocation count. -/
def reconcile_active (pending : Entry) : List Entry → Nat → List Entry × Bool × Nat
  | [], nb => ([], false, nb)
  | e :: rest, nb =>
    if e.m_name = pending.m_name ∧ e.m_extent = pending.m_extent ∧
        e.m_blocks = pending.m_blocks then
      (e :: rest, true, nb)
    else if e.m_name = pending.m_name ∧ e.m_extent = pending.m_extent ∧
        e.m_blocks ≠ pending.m_blocks then
      ({ e with
          m_sectors := pending.m_sectors
          m_blocks := pending.m_blocks
          m_size := pending.m_sectors * SectorSize
          m_first_block := nb % 65536
          m_modified := true } :: rest, true, nb + 1)
    else if e.m_exists ∧ e.m_name ≠ pending.m_name ∧ e.m_extent = pending.m_extent ∧
        e.m_blocks = pending.m_blocks ∧ pending.m_blocks ≠ [] then
      ({ e with
          m_name := pending.m_name
          m_raw_name := pending.m_raw_name
          m_modified := true } :: rest, true, nb)
    else
      let r := reconcile_active pending rest nb
      (e :: r.1, r.2.1, r.2.2)

/-- The deletion walk for an inactive pending entry: the first live entry
matching on name, extent and block list is marked deleted. -/
def reconcile_deleted (pending : Entry) : List Entry → List Entry
  | [] => []
  | e :: rest =>
    if e.m_name = pending.m_name ∧ e.m_exists ∧ ¬ pending.m_exists ∧
        e.m_extent = pending.m_extent ∧ e.m_blocks = pending.m_blocks then
      { e with m_exists := false, m_modified := true } :: rest
    else
      e :: reconcile_deleted pending rest

/-- Process one 32-byte pending entry of a directory sector being
written. -/
def reconcile_one (st : DiskState) (pending : Entry) : DiskState :=
  if pending.m_exists then
    let r := reconcile_active pending st.m_entries st.m_next_block
    if r.2.1 then
      { st with m_entries := r.1, m_next_block := r.2.2 % 65536 }
    else
      { st with m_entries := st.m_entries ++ [pending] }
  else
    { st with m_entries := reconcile_deleted pending st.m_entries }

/-- `Disk::Private::check_for_directory_changes`: reconcile the four
pending entries of the sector against the live entry list. -/
def check_for_directory_changes (st : DiskState) (buffer : SectorData) : DiskState :=
  (List.range (SectorSize / EntrySize)).foldl
    (fun s i => reconcile_one s (Entry.fromBuffer (buffer.drop (i * EntrySize)))) st

/-- `Disk::Private::read`: serve from the sector cache when possible;
otherwise synthesise directory data (tracks 0 and 1) or read file data
from the host, and insert the result into the cache.  Returns the filled
buffer and the updated state. -/
def read (st : DiskState) (buffer : SectorData) (track sector : Nat) :
    Except String (SectorData × DiskState) :=
  match st.m_sector_cache (track, sector) with
  | some info => .ok (info.m_data, st)
  | none =>
    let filled :=
      if track = 0 ∨ track = 1 then
        .ok (create_directory_entries st track sector)
      else
        read_disk_data st buffer track sector
    match filled with
    | .error e => .error e
    | .ok data =>
      .ok (data, { st with m_sector_cache := fun l =>
        if l = (track, sector) then some ⟨data, false⟩
        else st.m_sector_cache l })

/-- `Disk::Private::write`: reconcile directory changes when the sector
lies on a directory track, then upsert the sector into the cache. -/
def write (st : DiskState) (buffer : SectorData) (track sector : Nat) : DiskState :=
  let st1 :=
    if track = 0 ∨ track = 1 then check_for_directory_changes st buffer else st
  write_disk_data st1 buffer track sector

end Disk

/-- C1: writing 128 bytes to any (track, sector) and then reading the same
(track, sector) within the same session (before flush) returns exactly the
written bytes: the write upserts the sector into the cache and the read is
served from the cache, for directory tracks and data tracks alike.  The
incoming read buffer (`scratch`) is irrelevant. -/
theorem disk_write_then_read_roundtrip (st : Disk.DiskState)
    (buffer scratch : Disk.SectorData) (track sector : Nat) :
    Disk.read (Disk.write st buffer track sector) scratch track sector =
      .ok (buffer, Disk.write st buffer track sector) := by
  simp only [Disk.write, Disk.write_disk_data]
  cases h : (if track = 0 ∨ track = 1 then Disk.check_for_directory_changes st buffer
      else st).m_sector_cache (track, sector) <;>
    simp [Disk.read, h]

/-- C10: a host regular file of exactly 0 bytes contributes nothing to
`build_directory`: `ceil(0/16384) = 0` extents are created, no blocks are
allocated and the counter is untouched, so the directory (and hence every
synthesised directory sector) is identical to the one built without the
empty file — the file is invisible to the guest. -/
theorem empty_host_file_is_invisible (xs ys : List Disk.HostFile)
    (f : Disk.HostFile) (hf : f.size = 0) (nb : Nat) :
    Disk.build_directory (xs ++ f :: ys) nb = Disk.build_directory (xs ++ ys) nb := by
  induction xs generalizing nb with
  | nil =>
    simp only [List.nil_append, Disk.build_directory]
    by_cases hlog : f.filename ≠ Disk.zcpm_log_name
    · simp [hlog, hf, Disk.extentLoop]
    · simp [hlog]
  | cons x rest ih =>
    simp only [List.cons_append, Disk.build_directory]
    by_cases hlog : x.filename ≠ Disk.zcpm_log_name
    · simp [hlog, ih]
    · simp [hlog, ih]

/-! ### Directory allocation (C2) -/

namespace Disk

/-- `ceil(size / 2048)`: the number of 2 KiB blocks a file of `size`
bytes occupies. -/
def file_total_blocks (f : HostFile) : Nat :=
  (f.size + 2047) / 2048

/-- Total block count over a list of host files. -/
def list_total_blocks (files : List HostFile) : Nat :=
  (files.map file_total_blocks).sum

/-- Blocks consumed by the first `j` files of the list. -/
def prefix_total_blocks (files : List HostFile) (j : Nat) : Nat :=
  ((files.take j).map file_total_blocks).sum

/-- The placeholder host file used as a `getD` default. -/
def noFile : HostFile := ⟨[], [], [], 0⟩

/-- The extent loop creates exactly `n` entries whose concatenated block
lists are `ceil(rem / 16)` consecutively allocated block numbers, provided
`rem` fits in a `uint16_t` and `n` extents are exactly what `rem` sectors
need. -/
theorem extentLoop_spec (item : HostFile) (fb : Nat) :
    ∀ n idx rem nb, rem < 65536 → rem ≤ 128 * n → (n ≠ 0 → 128 * (n - 1) < rem) →
      (extentLoop item fb n idx rem nb).1.length = n ∧
      (extentLoop item fb n idx rem nb).1.flatMap Entry.m_blocks =
        (List.range ((rem + 15) / 16)).map (fun j => (nb + j) % 65536) ∧
      (extentLoop item fb n idx rem nb).2 = nb + (rem + 15) / 16 := by
  intro n
  induction n with
  | zero =>
    intro idx rem nb h1 h2 h3
    have hrem : rem = 0 := by omega
    subst hrem
    simp [extentLoop]
  | succ m ih =>
    intro idx rem nb h1 h2 h3
    have hlt : 128 * m < rem := by
      have := h3 (by omega)
      omega
    have hmod : rem % 65536 = rem := Nat.mod_eq_of_lt h1
    rcases Nat.eq_zero_or_pos m with hm | hm
    · subst hm
      have hsec : min (rem % 65536) 0x80 = rem := by
        rw [hmod]
        omega
      have hnb : (rem + SectorsPerBlock - 1) / SectorsPerBlock = (rem + 15) / 16 := by
        simp [SectorsPerBlock, BlockSize, SectorSize]
      simp only [extentLoop, Entry.fromHost, hsec, hnb]
      simp [extentLoop, Nat.sub_self]
    · have hsec : min (rem % 65536) 0x80 = 128 := by
        rw [hmod]
        omega
      have hnb : (128 + SectorsPerBlock - 1) / SectorsPerBlock = 8 := by
        simp [SectorsPerBlock, BlockSize, SectorSize]
      have ih2 := ih (idx + 1) (rem - 128) (nb + 8) (by omega) (by omega) (by omega)
      simp only [extentLoop, Entry.fromHost, hsec, hnb]
      refine ⟨?_, ?_, ?_⟩
      · simp [ih2.1]
      · have hsplit : (rem + 15) / 16 = 8 + (rem - 128 + 15) / 16 := by omega
        simp only [List.flatMap_cons, ih2.2.1, hsplit, List.range_add]
        rw [List.map_append, List.map_map]
        congr 1
        apply List.map_congr_left
        intro j _
        simp only [Function.comp]
        congr 1
        omega
      · have hsplit : (rem + 15) / 16 = 8 + (rem - 128 + 15) / 16 := by omega
        simp only [ih2.2.2]
        omega

/-- `build_directory` decomposes into one run of consecutive entries per
host file: the `j`-th file gets `ceil(size_j / 16384)` entries whose
concatenated block lists are exactly the contiguous range that starts
where the previous files stopped — provided every file needs fewer than
65536 sectors (no `uint16_t` sector-count truncation) and the final
counter stays within 16 bits (no wrap). -/
theorem build_directory_parts (files : List HostFile) :
    ∀ nb, (∀ f ∈ files, f.filename ≠ zcpm_log_name) →
      (∀ f ∈ files, (f.size + 127) / 128 < 65536) →
      nb + list_total_blocks files ≤ 65536 →
      ∃ parts : List (List Entry),
        (build_directory files nb).1 = parts.flatten ∧
        (build_directory files nb).2 = nb + list_total_blocks files ∧
        parts.length = files.length ∧
        (∀ j, j < files.length →
          (parts.getD j []).length =
            ((files.getD j noFile).size + 16383) / 16384 ∧
          (parts.getD j []).flatMap Entry.m_blocks =
            List.range' (nb + prefix_total_blocks files j)
              (file_total_blocks (files.getD j noFile))) := by
  induction files with
  | nil =>
    intro nb _ _ _
    exact ⟨[], by simp [build_directory, list_total_blocks], by
      simp [build_directory, list_total_blocks], rfl, by simp⟩
  | cons f rest ih =>
    intro nb hlog hsize hwrap
    have hlogf : f.filename ≠ zcpm_log_name := hlog f (by simp)
    have hsizef : (f.size + 127) / 128 < 65536 := hsize f (by simp)
    have hltot : list_total_blocks (f :: rest) =
        file_total_blocks f + list_total_blocks rest := by
      simp [list_total_blocks]
    set n := (f.size + 0x0080 * 0x0080 - 1) / (0x0080 * 0x0080) with hn
    set rem := (f.size + SectorSize - 1) / SectorSize with hrem
    set E := extentLoop f (nb % 65536) n 0 rem nb with hE
    have hremval : rem = (f.size + 127) / 128 := by
      rw [hrem]
      simp only [SectorSize]
      omega
    have hnval : n = (f.size + 16383) / 16384 := by
      rw [hn]
      norm_num
    have hrem16 : rem < 65536 := by
      rw [hremval]
      omega
    have htot : (rem + 15) / 16 = file_total_blocks f := by
      rw [hremval]
      simp only [file_total_blocks]
      omega
    obtain ⟨hlen, hflat, hctr⟩ := extentLoop_spec f (nb % 65536) n 0 rem nb hrem16
      (by rw [hremval, hnval]; omega)
      (by intro h0; rw [hnval] at h0; rw [hremval, hnval]; omega)
    rw [← hE] at hlen hflat hctr
    rw [htot] at hflat hctr
    have hbuild : build_directory (f :: rest) nb =
        (E.1 ++ (build_directory rest E.2).1, (build_directory rest E.2).2) := by
      rw [build_directory, if_pos hlogf]
    obtain ⟨parts0, hp1, hp2, hp3, hp4⟩ := ih E.2
      (fun g hg => hlog g (by simp [hg]))
      (fun g hg => hsize g (by simp [hg]))
      (by omega)
    have hwtot : nb + file_total_blocks f ≤ 65536 := by omega
    have hflat2 : E.1.flatMap Entry.m_blocks =
        List.range' nb (file_total_blocks f) := by
      rw [hflat, List.range'_eq_map_range]
      apply List.map_congr_left
      intro j hj
      have hj2 : j < file_total_blocks f := List.mem_range.mp hj
      exact Nat.mod_eq_of_lt (by omega)
    refine ⟨E.1 :: parts0, ?_, ?_, ?_, ?_⟩
    · rw [hbuild]
      simp [hp1]
    · rw [hbuild]
      show (build_directory rest E.2).2 = nb + list_total_blocks (f :: rest)
      rw [hp2, hctr, hltot]
      omega
    · simp [hp3]
    · intro j hj
      match j with
      | 0 =>
        refine ⟨?_, ?_⟩
        · simpa [hnval] using hlen
        · have hpre : prefix_total_blocks (f :: rest) 0 = 0 := by
            simp [prefix_total_blocks]
          simpa [hpre] using hflat2
      | j + 1 =>
        have hj2 : j < rest.length := by simpa using hj
        have hpre : prefix_total_blocks (f :: rest) (j + 1) =
            file_total_blocks f + prefix_total_blocks rest j := by
          simp [prefix_total_blocks, List.take_succ_cons]
        obtain ⟨hq1, hq2⟩ := hp4 j hj2
        refine ⟨by simpa using hq1, ?_⟩
        simp only [List.getD_cons_succ, List.getD_cons_succ]
        rw [hq2, hctr, hpre]
        congr 1
        omega

/-- `prefix_total_blocks` at `j + 1` adds the `j`-th file's blocks. -/
theorem prefix_total_blocks_succ :
    ∀ (files : List HostFile) (j : Nat), j < files.length →
      prefix_total_blocks files (j + 1) =
        prefix_total_blocks files j + file_total_blocks (files.getD j noFile)
  | [], _, h => absurd h (by simp)
  | _ :: _, 0, _ => by simp [prefix_total_blocks]
  | f :: rest, j + 1, h => by
    have hrec := prefix_total_blocks_succ rest j (by simpa using h)
    simp only [prefix_total_blocks, List.take_succ_cons, List.map_cons, List.sum_cons,
      List.getD_cons_succ] at hrec ⊢
    omega

/-- The block range of file `j` ends no later than where file `k`'s blocks
begin, for `j < k`. -/
theorem prefix_total_blocks_le (files : List HostFile) :
    ∀ j k, j < k → k ≤ files.length →
      prefix_total_blocks files j + file_total_blocks (files.getD j noFile) ≤
        prefix_total_blocks files k := by
  intro j k
  induction k with
  | zero => omega
  | succ k ih =>
    intro hjk hk
    rcases Nat.lt_or_ge j k with h | h
    · have h1 := ih h (by omega)
      have h2 := prefix_total_blocks_succ files k (by omega)
      omega
    · have hj : j = k := by omega
      subst hj
      have h2 := prefix_total_blocks_succ files j (by omega)
      omega

/-- Membership in a step-1 `range'` is interval membership. -/
theorem mem_range'_iff (s n m : Nat) : m ∈ List.range' s n ↔ s ≤ m ∧ m < s + n := by
  rw [List.mem_range']
  constructor
  · rintro ⟨i, hi, rfl⟩
    omega
  · intro h
    exact ⟨m - s, by omega, by omega⟩

end Disk

/-- C2 (amended): for host directories in which every regular file needs
fewer than 65536 sectors (i.e. is smaller than about 8 MiB, so the
`uint16_t` sector-count parameter of the `Entry` constructor does not
truncate) and whose total block demand keeps the 16-bit allocation counter
from wrapping, `build_directory` gives the `j`-th scanned file exactly
`ceil(N_j/16384)` directory entries; the concatenation of their block
lists has length `ceil(N_j/2048)` (`file_total_blocks`) and is exactly the
contiguous range starting where the previous files' allocations stopped,
the whole allocation being contiguous from the initial counter 0x10; block
sets of distinct files are pairwise disjoint. -/
theorem build_directory_allocation (files : List Disk.HostFile)
    (hlog : ∀ f ∈ files, f.filename ≠ Disk.zcpm_log_name)
    (hsize : ∀ f ∈ files, (f.size + 127) / 128 < 65536)
    (hwrap : 16 + Disk.list_total_blocks files ≤ 65536) :
    ∃ parts : List (List Disk.Entry),
      (Disk.build_directory files 16).1 = parts.flatten ∧
      parts.length = files.length ∧
      (∀ j, j < files.length →
        (parts.getD j []).length =
          ((files.getD j Disk.noFile).size + 16383) / 16384 ∧
        ((parts.getD j []).flatMap Disk.Entry.m_blocks).length =
          Disk.file_total_blocks (files.getD j Disk.noFile) ∧
        (parts.getD j []).flatMap Disk.Entry.m_blocks =
          List.range' (16 + Disk.prefix_total_blocks files j)
            (Disk.file_total_blocks (files.getD j Disk.noFile))) ∧
      (∀ j k, j < files.length → k < files.length → j ≠ k →
        ∀ b, b ∈ (parts.getD j []).flatMap Disk.Entry.m_blocks →
          b ∉ (parts.getD k []).flatMap Disk.Entry.m_blocks) := by
  obtain ⟨parts, h1, _h2, h3, h4⟩ :=
    Disk.build_directory_parts files 16 hlog hsize hwrap
  have key : ∀ x y, x < y → y < files.length →
      ∀ b, b ∈ (parts.getD x []).flatMap Disk.Entry.m_blocks →
        b ∈ (parts.getD y []).flatMap Disk.Entry.m_blocks → False := by
    intro x y hxy hy b hbx hby
    have hx : x < files.length := by omega
    have hle := Disk.prefix_total_blocks_le files x y hxy (by omega)
    rw [(h4 x hx).2, Disk.mem_range'_iff] at hbx
    rw [(h4 y hy).2, Disk.mem_range'_iff] at hby
    omega
  refine ⟨parts, h1, h3, ?_, ?_⟩
  · intro j hj
    obtain ⟨ha, hb⟩ := h4 j hj
    exact ⟨ha, by rw [hb, List.length_range'], hb⟩
  · intro j k hj hk hjk b hbj hbk
    rcases Nat.lt_or_ge j k with h | h
    · exact key j k h hk b hbj hbk
    · exact key k j (by omega) hj b hbk hbj

/-- A 0-byte host file, for the C10 witness. -/
def emptyHostFile : Disk.HostFile where
  filename := [101, 46, 116, 120, 116]
  stem := [101]
  extension := [46, 116, 120, 116]
  size := 0

/-- A 200-byte host file, for witnesses. -/
def smallHostFile : Disk.HostFile where
  filename := [98, 46, 116, 120, 116]
  stem := [98]
  extension := [46, 116, 120, 116]
  size := 200

/-- Witness for C2 at the one-file directory [200-byte file]. -/
theorem build_directory_allocation_witness :
    ((∀ f ∈ [smallHostFile], f.filename ≠ Disk.zcpm_log_name) ∧
      (∀ f ∈ [smallHostFile], (f.size + 127) / 128 < 65536) ∧
      16 + Disk.list_total_blocks [smallHostFile] ≤ 65536) ∧
    ∃ parts : List (List Disk.Entry),
      (Disk.build_directory [smallHostFile] 16).1 = parts.flatten ∧
      parts.length = [smallHostFile].length ∧
      (∀ j, j < [smallHostFile].length →
        (parts.getD j []).length =
          (([smallHostFile].getD j Disk.noFile).size + 16383) / 16384 ∧
        ((parts.getD j []).flatMap Disk.Entry.m_blocks).length =
          Disk.file_total_blocks ([smallHostFile].getD j Disk.noFile) ∧
        (parts.getD j []).flatMap Disk.Entry.m_blocks =
          List.range' (16 + Disk.prefix_total_blocks [smallHostFile] j)
            (Disk.file_total_blocks ([smallHostFile].getD j Disk.noFile))) ∧
      (∀ j k, j < [smallHostFile].length → k < [smallHostFile].length → j ≠ k →
        ∀ b, b ∈ (parts.getD j []).flatMap Disk.Entry.m_blocks →
          b ∉ (parts.getD k []).flatMap Disk.Entry.m_blocks) :=
  ⟨⟨by decide, by decide, by decide⟩,
    build_directory_allocation [smallHostFile] (by decide) (by decide) (by decide)⟩

/-- An 8 MiB host file ("big.bin"): its 65536-sector demand truncates to 0
in the `uint16_t` `sectors` parameter of the `Entry` constructor. -/
def bigHostFile : Disk.HostFile where
  filename := [98, 105, 103, 46, 98, 105, 110]
  stem := [98, 105, 103]
  extension := [46, 98, 105, 110]
  size := 8388608

/-- With a remaining sector count of exactly 65536, every extent created
by the loop receives `min(uint16(65536), 0x80) = 0` sectors and no
blocks, and the remaining count never decreases. -/
theorem extentLoop_truncated (item : Disk.HostFile) (fb : Nat) :
    ∀ n idx nb,
      (Disk.extentLoop item fb n idx 65536 nb).1.length = n ∧
      (Disk.extentLoop item fb n idx 65536 nb).1.flatMap Disk.Entry.m_blocks = [] ∧
      (Disk.extentLoop item fb n idx 65536 nb).2 = nb := by
  intro n
  induction n with
  | zero => simp [Disk.extentLoop]
  | succ m ih =>
    intro idx nb
    have hstep := ih (idx + 1) nb
    simp [Disk.extentLoop, Disk.Entry.fromHost, Disk.SectorsPerBlock,
      Disk.BlockSize, Disk.SectorSize, hstep]

/-- C2 counterexample: the claim as stated fails on the code for a host
file of 8 MiB (8388608 bytes).  `build_directory` does create
`ceil(N/16384) = 512` entries for it, but the concatenation of their block
lists is empty — length 0 instead of the claimed `ceil(N/2048) = 4096` —
because the remaining-sector count 65536 truncates to 0 in the `uint16_t`
`sectors` parameter of every `Entry`. -/
theorem build_directory_blocklist_counterexample :
    (Disk.build_directory [bigHostFile] 16).1.length = 512 ∧
    Disk.file_total_blocks bigHostFile = 4096 ∧
    ((Disk.build_directory [bigHostFile] 16).1.flatMap Disk.Entry.m_blocks).length ≠
      Disk.file_total_blocks bigHostFile := by
  have hlog : bigHostFile.filename ≠ Disk.zcpm_log_name := by decide
  obtain ⟨hlen, hflat, hctr⟩ := extentLoop_truncated bigHostFile 16 512 0 16
  have hbuild : Disk.build_directory [bigHostFile] 16 =
      ((Disk.extentLoop bigHostFile 16 512 0 65536 16).1,
        (Disk.extentLoop bigHostFile 16 512 0 65536 16).2) := by
    rw [Disk.build_directory, if_pos hlog]
    norm_num [bigHostFile, Disk.SectorSize, Disk.build_directory]
  rw [hbuild]
  refine ⟨hlen, by norm_num [Disk.file_total_blocks, bigHostFile], ?_⟩
  rw [hflat]
  norm_num [Disk.file_total_blocks, bigHostFile]

/-- Witness for C10 at the concrete directory [empty, small]. -/
theorem empty_host_file_is_invisible_witness :
    emptyHostFile.size = 0 ∧
    Disk.build_directory [emptyHostFile, smallHostFile] 16 =
      Disk.build_directory [smallHostFile] 16 :=
  ⟨rfl, empty_host_file_is_invisible [] [smallHostFile] emptyHostFile rfl 16⟩

/-! ## System::load_fcb command tail (`src/core/system.cpp`)

`load_fcb` is called by the machine builder after `setup_bios` and before
`System::reset`, so `m_check_memory_accesses` is still `false` at that
point (it is only enabled by `reset`): the hypotheses below reflect that
call context. -/

/-- Sequential byte stores (last write wins), used to state the effect of a
sequence of `write_byte` calls. -/
def store_bytes (mem : Nat → Nat) : List (Nat × Nat) → (Nat → Nat)
  | [] => mem
  | (a, v) :: rest =>
    store_bytes (fun i => if i = a % 65536 then v % 256 else mem i) rest

/-- A sequence of `Hardware::write_byte` calls, stopping at the first
throw. -/
def write_byte_seq (hw : Hardware) : List (Nat × Nat) → Except (String × Hardware) Hardware
  | [] => .ok hw
  | (a, v) :: rest =>
    match hw.write_byte a v with
    | .error e => .error e
    | .ok hw1 => write_byte_seq hw1 rest

/-- `Hardware::copy_to_ram(buffer, count, base)`: unconditional bulk copy,
clamped to the top of RAM; a null/empty buffer copies nothing. -/
def copy_to_ram (hw : Hardware) (buffer : List Nat) (base : Nat) : Hardware :=
  if buffer.length = 0 then
    hw
  else
    let b := base % 65536
    let count := min buffer.length (65536 - b)
    { hw with mem := fun i =>
        if b ≤ i ∧ i < b + count then buffer.getD (i - b) 0 % 256 else hw.mem i }

/-- The command tail built by `System::load_fcb`: for each argument, a
leading space followed by the upper-cased argument. -/
def command_tail (args : List (List Nat)) : List Nat :=
  args.flatMap (fun s => 32 :: s.map Disk.upper_byte)

/-- `System::load_fcb(args)`: copy the 36-byte FCB image (built by
`Fcb::set` from the first one or two arguments, passed in here as
`fcb_image`) to 0x005C, then write the command tail at 0x0080: one length
byte, the tail's bytes, and a terminating 0x00 — all through
`Hardware::write_byte`. -/
def load_fcb (hw : Hardware) (fcb_image : List Nat) (args : List (List Nat)) :
    Except (String × Hardware) Hardware :=
  let hw1 := copy_to_ram hw fcb_image 0x005C
  let tail := command_tail args
  write_byte_seq hw1
    ((0x0080, tail.length) ::
      ((List.range tail.length).map (fun i => (0x0080 + 1 + i, tail.getD i 0)) ++
        [(0x0080 + tail.length + 1, 0x00)]))

/-- With `m_check_memory_accesses` off, `write_byte` is a plain store. -/
theorem write_byte_unchecked (hw : Hardware) (hchk : hw.check_memory_accesses = false)
    (a v : Nat) :
    hw.write_byte a v =
      .ok { hw with mem := fun i => if i = a % 65536 then v % 256 else hw.mem i } := by
  simp [Hardware.write_byte, Hardware.check_watched_memory_byte, hchk]

/-- With checks off, a whole write sequence succeeds and acts as
`store_bytes`. -/
theorem write_byte_seq_unchecked :
    ∀ (writes : List (Nat × Nat)) (hw : Hardware),
      hw.check_memory_accesses = false →
      write_byte_seq hw writes = .ok { hw with mem := store_bytes hw.mem writes }
  | [], hw, _ => rfl
  | (a, v) :: rest, hw, hchk => by
    rw [write_byte_seq, write_byte_unchecked hw hchk a v]
    exact write_byte_seq_unchecked rest _ hchk

/-- `store_bytes` distributes over list append. -/
theorem store_bytes_append :
    ∀ (xs ys : List (Nat × Nat)) (mem : Nat → Nat),
      store_bytes mem (xs ++ ys) = store_bytes (store_bytes mem xs) ys
  | [], _, _ => rfl
  | (a, v) :: xs, ys, mem => by
    rw [List.cons_append, store_bytes, store_bytes, store_bytes_append xs ys]

/-- A location no write in the list touches keeps its old value. -/
theorem store_bytes_untouched :
    ∀ (writes : List (Nat × Nat)) (mem : Nat → Nat) (x : Nat),
      (∀ p ∈ writes, p.1 % 65536 ≠ x) →
      store_bytes mem writes x = mem x
  | [], _, _, _ => rfl
  | (a, v) :: rest, mem, x, h => by
    rw [store_bytes, store_bytes_untouched rest _ x (fun p hp => h p (by simp [hp]))]
    rw [if_neg ?_]
    intro hx
    exact h (a, v) (by simp) (by simpa using hx.symm)

/-- Looking up the `i`-th location of an indexed run of byte writes. -/
theorem store_bytes_indexed (base : Nat) (f : Nat → Nat) :
    ∀ (n : Nat) (mem : Nat → Nat) (i : Nat), i < n → base + n ≤ 65536 →
      store_bytes mem ((List.range n).map (fun j => (base + j, f j))) (base + i) =
        f i % 256 := by
  intro n
  induction n with
  | zero => omega
  | succ m ih =>
    intro mem i hi hb
    rw [List.range_succ, List.map_append, store_bytes_append]
    simp only [List.map_cons, List.map_nil]
    simp only [store_bytes]
    have hmod : (base + m) % 65536 = base + m := Nat.mod_eq_of_lt (by omega)
    rw [hmod]
    rcases Nat.lt_or_ge i m with h | h
    · rw [if_neg (by omega : ¬ base + i = base + m)]
      exact ih mem i h (by omega)
    · have hieq : i = m := by omega
      subst hieq
      rw [if_pos rfl]

/-- The effect of `load_fcb` on the command-tail area, for any tail that
fits below the top of RAM: the call succeeds (checks are off at this point
of machine construction) and leaves length-byte `% 256`, the tail bytes
`% 256`, and the terminating 0x00. -/
theorem load_fcb_tail_effect (hw : Hardware) (fcb_image : List Nat)
    (args : List (List Nat))
    (hchk : hw.check_memory_accesses = false)
    (hlen : (command_tail args).length + 0x82 ≤ 65536) :
    ∃ hw2, load_fcb hw fcb_image args = .ok hw2 ∧
      hw2.mem 0x0080 = (command_tail args).length % 256 ∧
      (∀ i, i < (command_tail args).length →
        hw2.mem (0x0080 + 1 + i) = (command_tail args).getD i 0 % 256) ∧
      hw2.mem (0x0080 + (command_tail args).length + 1) = 0 := by
  have hchk1 : (copy_to_ram hw fcb_image 0x005C).check_memory_accesses = false := by
    rw [copy_to_ram]
    by_cases h : fcb_image.length = 0 <;> simp [h, hchk]
  have hrun := write_byte_seq_unchecked
    ((0x0080, (command_tail args).length) ::
      ((List.range (command_tail args).length).map
          (fun i => (0x0080 + 1 + i, (command_tail args).getD i 0)) ++
        [(0x0080 + (command_tail args).length + 1, 0x00)]))
    (copy_to_ram hw fcb_image 0x005C) hchk1
  refine ⟨_, hrun, ?_, ?_, ?_⟩
  · show store_bytes _ _ 0x0080 = (command_tail args).length % 256
    rw [store_bytes, store_bytes_untouched]
    · simp
    · intro p hp
      rcases List.mem_append.mp hp with hmap | hlast
      · obtain ⟨i, hi, rfl⟩ := List.mem_map.mp hmap
        have hi2 := List.mem_range.mp hi
        simp only
        rw [Nat.mod_eq_of_lt (by omega)]
        omega
      · simp only [List.mem_singleton] at hlast
        subst hlast
        simp only
        rw [Nat.mod_eq_of_lt (by omega)]
        omega
  · intro i hi
    show store_bytes _ _ (0x0080 + 1 + i) = (command_tail args).getD i 0 % 256
    rw [store_bytes, store_bytes_append]
    simp only [store_bytes]
    rw [Nat.mod_eq_of_lt (by omega : 0x0080 + (command_tail args).length + 1 < 65536)]
    rw [if_neg (by omega : ¬ 0x0080 + 1 + i = 0x0080 + (command_tail args).length + 1)]
    exact store_bytes_indexed (0x0080 + 1) (fun j => (command_tail args).getD j 0)
      (command_tail args).length _ i hi (by omega)
  · show store_bytes _ _ (0x0080 + (command_tail args).length + 1) = 0
    rw [store_bytes, store_bytes_append]
    simp only [store_bytes]
    rw [Nat.mod_eq_of_lt (by omega : 0x0080 + (command_tail args).length + 1 < 65536)]
    rw [if_pos rfl]

/-- C7 (amended): whenever the command tail — a leading space plus the
upper-cased text of each argument, in order — is shorter than 256 bytes
and the arguments hold byte values, `System::load_fcb(args)` writes at
0x0080 one length byte equal to the tail's length, followed by the tail's
bytes, followed by a terminating 0x00. -/
theorem load_fcb_command_tail (hw : Hardware) (fcb_image : List Nat)
    (args : List (List Nat))
    (hchk : hw.check_memory_accesses = false)
    (hbytes : ∀ s ∈ args, ∀ c ∈ s, c < 256)
    (hlen : (command_tail args).length < 256) :
    ∃ hw2, load_fcb hw fcb_image args = .ok hw2 ∧
      hw2.mem 0x0080 = (command_tail args).length ∧
      (∀ i, i < (command_tail args).length →
        hw2.mem (0x0080 + 1 + i) = (command_tail args).getD i 0) ∧
      hw2.mem (0x0080 + (command_tail args).length + 1) = 0 := by
  obtain ⟨hw2, h1, h2, h3, h4⟩ :=
    load_fcb_tail_effect hw fcb_image args hchk (by omega)
  have hall : ∀ x ∈ command_tail args, x < 256 := by
    intro x hx
    simp only [command_tail] at hx
    obtain ⟨s, hs, hc⟩ := List.mem_flatMap.mp hx
    rcases List.mem_cons.mp hc with h32 | hup
    · omega
    · obtain ⟨c, hcs, hceq⟩ := List.mem_map.mp hup
      have hcb := hbytes s hs c hcs
      rw [← hceq]
      simp only [Disk.upper_byte]
      split <;> omega
  have htb : ∀ i, i < (command_tail args).length → (command_tail args).getD i 0 < 256 := by
    intro i hi
    have hg : (command_tail args).getD i 0 = (command_tail args).get ⟨i, hi⟩ := by
      rw [List.getD_eq_get?]
      rw [List.get?_eq_get hi]
      rfl
    rw [hg]
    exact hall _ (List.get_mem _ _ _)
  refine ⟨hw2, h1, ?_, ?_, h4⟩
  · rw [h2, Nat.mod_eq_of_lt hlen]
  · intro i hi
    rw [h3 i hi, Nat.mod_eq_of_lt (htb i hi)]

/-- A `Hardware` in the machine-construction phase (checks not yet
enabled by `System::reset`), for C7 witnesses. -/
def hwNoChecks : Hardware where
  mem := fun _ => 0
  watch_read := fun a => decide (a < 0x100)
  watch_write := fun a => decide (a < 0x100)
  enable_memory_checks := true
  check_memory_accesses := false
  bios := some (0xF200, 0xF220)

/-- A 36-byte FCB image, as built by `Fcb::set`. -/
def fcbImage36 : List Nat := List.replicate 36 0

/-- The bytes of "foo.txt". -/
def fooTxtArg : List Nat := [102, 111, 111, 46, 116, 120, 116]

/-- The bytes of "bar". -/
def barArg : List Nat := [98, 97, 114]

/-- Witness for C7 at `args = ["foo.txt", "bar"]`, whose tail is
" FOO.TXT BAR" (12 bytes). -/
theorem load_fcb_command_tail_witness :
    (hwNoChecks.check_memory_accesses = false ∧
      (command_tail [fooTxtArg, barArg]).length < 256) ∧
    ∃ hw2, load_fcb hwNoChecks fcbImage36 [fooTxtArg, barArg] = .ok hw2 ∧
      hw2.mem 0x0080 = (command_tail [fooTxtArg, barArg]).length ∧
      (∀ i, i < (command_tail [fooTxtArg, barArg]).length →
        hw2.mem (0x0080 + 1 + i) = (command_tail [fooTxtArg, barArg]).getD i 0) ∧
      hw2.mem (0x0080 + (command_tail [fooTxtArg, barArg]).length + 1) = 0 :=
  ⟨⟨rfl, by decide⟩,
    load_fcb_command_tail hwNoChecks fcbImage36 [fooTxtArg, barArg] rfl
      (by decide) (by decide)⟩

/-- C7 counterexample: the claim as stated fails for an argument of 255
bytes.  The tail then has 256 bytes, and the `uint8_t` length byte written
at 0x0080 is 256 % 256 = 0, not the tail's length. -/
theorem load_fcb_length_byte_counterexample :
    (command_tail [List.replicate 255 97]).length = 256 ∧
    ∃ hw2, load_fcb hwNoChecks fcbImage36 [List.replicate 255 97] = .ok hw2 ∧
      hw2.mem 0x0080 = 0 ∧
      hw2.mem 0x0080 ≠ (command_tail [List.replicate 255 97]).length := by
  have hlen : (command_tail [List.replicate 255 97]).length = 256 := by
    simp only [command_tail, List.flatMap_cons, List.flatMap_nil, List.append_nil,
      List.length_cons, List.length_map, List.length_replicate]
  obtain ⟨hw2, h1, h2, _, _⟩ :=
    load_fcb_tail_effect hwNoChecks fcbImage36 [List.replicate 255 97] rfl
      (by rw [hlen]; omega)
  refine ⟨hlen, hw2, h1, ?_, ?_⟩
  · rw [h2, hlen]
  · rw [h2, hlen]
    omega

/-! ## BIOS construction (`src/core/bios.cpp`)

The `Bios` constructor runs from `Hardware::set_fbase_and_wboot`, before
`System::reset` has enabled `m_check_memory_accesses`, so its guest-memory
writes cannot throw; the signature check is the only exception source.
The symbol-table additions at the end of the constructor only affect trace
output and are not part of the modelled state. -/

/-- `Hardware::check_watched_memory_word`: like the byte variant, but a
watch hit at either byte of the word triggers; the fatal test is on the
first byte's address, and the BIOS test on either byte.  The `+ 1`
addresses pass through `uint16_t` conversion. -/
def Hardware.check_watched_memory_word (hw : Hardware) (address : Nat) (mode : Access) :
    Option String :=
  if !hw.enable_memory_checks || !hw.check_memory_accesses then
    none
  else if mode = .write && (hw.watch_write address || hw.watch_write ((address + 1) % 65536)) &&
      Hardware.is_fatal_write address then
    some "Aborting: illegal memory write"
  else if mode = .write &&
      (hw.bios_contains address || hw.bios_contains ((address + 1) % 65536)) then
    some "BIOS tampering!"
  else
    none

/-- `Hardware::write_word(uint16_t, uint16_t)`: check, then store low byte
at `address` and high byte at `(address + 1) & 0xffff`. -/
def Hardware.write_word (hw : Hardware) (address x : Nat) :
    Except (String × Hardware) Hardware :=
  let a := address % 65536
  let v := x % 65536
  match hw.check_watched_memory_word a .write with
  | some msg => .error (msg, hw)
  | none => .ok { hw with mem := fun i =>
      if i = (a + 1) % 65536 then v >>> 8
      else if i = a then v % 256 else hw.mem i }

/-- `Hardware::add_watch_read(base, count)`: insert a contiguous address
range into the read-watch set. -/
def Hardware.add_watch_read (hw : Hardware) (base count : Nat) : Hardware :=
  { hw with watch_read := fun a =>
      hw.watch_read a || decide (base % 65536 ≤ a ∧ a < base % 65536 + count % 65536) }

/-- `Hardware::add_watch_write(base, count)`. -/
def Hardware.add_watch_write (hw : Hardware) (base count : Nat) : Hardware :=
  { hw with watch_write := fun a =>
      hw.watch_write a || decide (base % 65536 ≤ a ∧ a < base % 65536 + count % 65536) }

/-- One guest-memory write performed during BIOS construction: a byte or
a word store. -/
inductive GuestWrite where
  | b : Nat → Nat → GuestWrite
  | w : Nat → Nat → GuestWrite

/-- Run a sequence of guest writes, stopping at the first throw. -/
def perform_writes (hw : Hardware) : List GuestWrite → Except (String × Hardware) Hardware
  | [] => .ok hw
  | .b a v :: rest =>
    match hw.write_byte a v with
    | .error e => .error e
    | .ok hw1 => perform_writes hw1 rest
  | .w a v :: rest =>
    match hw.write_word a v with
    | .error e => .error e
    | .ok hw1 => perform_writes hw1 rest

/-- The pure effect of a guest-write sequence on memory. -/
def apply_guest_writes (mem : Nat → Nat) : List GuestWrite → (Nat → Nat)
  | [] => mem
  | .b a v :: rest =>
    apply_guest_writes (fun i => if i = a % 65536 then v % 256 else mem i) rest
  | .w a v :: rest =>
    apply_guest_writes (fun i =>
      if i = (a % 65536 + 1) % 65536 then x_hi a v
      else if i = a % 65536 then x_lo v else mem i) rest
where
  x_hi (_a v : Nat) : Nat := (v % 65536) >>> 8
  x_lo (v : Nat) : Nat := v % 65536 % 256

/-- The rewrite of the 33 JP operands: vector `i` is re-pointed at
`stubs_base + i`. -/
def jump_vector_writes (base : Nat) : List GuestWrite :=
  (List.range 33).map (fun i => .w (base + i * 3 + 1) ((base + 0x0100) % 65536 + i))

/-- All guest-memory writes of the `Bios` constructor, in order: the 33
JP-operand rewrites, the 33 RET stubs, the zero fill between table and
stubs, the DPH, the DPB ("HDBLK") and the zero fill from above the DPH
region to the top of RAM. -/
def bios_construction_writes (base : Nat) : List GuestWrite :=
  let stubs_base := (base + 0x0100) % 65536
  let stubs_top := (stubs_base + 33 - 1) % 65536
  let dph_base := (stubs_top + 1) % 65536
  let dirbf := dph_base + 0x10
  let hdblk := dirbf + 0x80
  let chkhd1 := hdblk + 0x10
  let allhd1 := chkhd1 + 0x10
  let dph_top := (allhd1 + 0x00FF) % 65536
  jump_vector_writes base ++
    (List.range 33).map (fun i => .b (stubs_base + i) 0xC9) ++
    (List.range' (base + 33 * 3) (stubs_base - (base + 33 * 3))).map (fun i => .b i 0x00) ++
    [.w (dph_base + 0x00) 0x0000,
      .w (dph_base + 0x02) 0x0000,
      .w (dph_base + 0x04) 0x0000,
      .w (dph_base + 0x06) 0x0000,
      .w (dph_base + 0x08) dirbf,
      .w (dph_base + 0x0A) hdblk,
      .w (dph_base + 0x0C) chkhd1,
      .w (dph_base + 0x0E) allhd1,
      .w (hdblk + 0x00) 0x0080,
      .b (hdblk + 0x02) Disk.BSH,
      .b (hdblk + 0x03) Disk.BLM,
      .b (hdblk + 0x04) 0x00,
      .w (hdblk + 0x05) 0x07F7,
      .w (hdblk + 0x07) 0x03FF,
      .b (hdblk + 0x09) 0xFF,
      .b (hdblk + 0x0A) 0xFF,
      .w (hdblk + 0x0B) 0x0000,
      .w (hdblk + 0x0D) 0x0000] ++
    (List.range' (dph_top + 1) (0x10000 - (dph_top + 1))).map (fun i => .b i 0x00)

/-- The discovered jump-table base: three bytes below the target of the
JP at 0x0001 (the `- 3` is `int` arithmetic truncated back to
`uint16_t`). -/
def discovered_base (hw : Hardware) : Nat :=
  (hw.read_byte 1 + (hw.read_byte 2 <<< 8) + 65536 - 3) % 65536

/-- The `Bios` constructor (`Bios::Bios`): discover the jump-table base
from the JP operand at 0x0001 (WBOOT is the table's second entry, so the
base is three bytes below its target), validate the 0xC3 signature at the
base and at base+3, then rewrite the table, build stubs, DPH and DPB, and
install the read/write watches over the DPH region.  Returns
(discovered_base, stubs_base, stubs_top) and the updated hardware. -/
def bios_construct (hw : Hardware) : Except (String × Hardware) (Nat × Nat × Nat × Hardware) :=
  let base := discovered_base hw
  if hw.read_byte (base + 0) ≠ 0xC3 ∨ hw.read_byte (base + 3) ≠ 0xC3 then
    .error ("BIOS jump table not found", hw)
  else
    let stubs_base := (base + 0x0100) % 65536
    let stubs_top := (stubs_base + 33 - 1) % 65536
    let dph_base := (stubs_top + 1) % 65536
    let dph_top := ((dph_base + 0x10 + 0x80 + 0x10 + 0x10) + 0x00FF) % 65536
    match perform_writes hw (bios_construction_writes base) with
    | .error e => .error e
    | .ok hw1 =>
      .ok (base, stubs_base, stubs_top,
        (hw1.add_watch_read dph_base (dph_top - dph_base + 1)).add_watch_write
          dph_base (dph_top - dph_base + 1))

/-- With `m_check_memory_accesses` off, `write_word` is a plain
little-endian store pair. -/
theorem write_word_unchecked (hw : Hardware) (hchk : hw.check_memory_accesses = false)
    (a v : Nat) :
    hw.write_word a v =
      .ok { hw with mem := fun i =>
        if i = (a % 65536 + 1) % 65536 then (v % 65536) >>> 8
        else if i = a % 65536 then v % 65536 % 256 else hw.mem i } := by
  simp [Hardware.write_word, Hardware.check_watched_memory_word, hchk]

/-- With checks off, a whole guest-write sequence succeeds and acts as
`apply_guest_writes`. -/
theorem perform_writes_unchecked :
    ∀ (ws : List GuestWrite) (hw : Hardware),
      hw.check_memory_accesses = false →
      perform_writes hw ws = .ok { hw with mem := apply_guest_writes hw.mem ws }
  | [], _, _ => rfl
  | .b a v :: rest, hw, hchk => by
    rw [perform_writes, write_byte_unchecked hw hchk a v]
    exact perform_writes_unchecked rest _ hchk
  | .w a v :: rest, hw, hchk => by
    rw [perform_writes, write_word_unchecked hw hchk a v]
    exact perform_writes_unchecked rest _ hchk

/-- `apply_guest_writes` distributes over list append. -/
theorem apply_guest_writes_append :
    ∀ (xs ys : List GuestWrite) (mem : Nat → Nat),
      apply_guest_writes mem (xs ++ ys) =
        apply_guest_writes (apply_guest_writes mem xs) ys
  | [], _, _ => rfl
  | .b a v :: xs, ys, mem => by
    rw [List.cons_append, apply_guest_writes, apply_guest_writes,
      apply_guest_writes_append xs ys]
  | .w a v :: xs, ys, mem => by
    rw [List.cons_append, apply_guest_writes, apply_guest_writes,
      apply_guest_writes_append xs ys]

/-- Reading back the `i`-th rewritten JP operand after the vector-rewrite
run: the two bytes hold `stubs_base + i` little-endian. -/
theorem apply_jump_vectors_read (base : Nat) :
    ∀ (n : Nat) (mem : Nat → Nat) (i : Nat), i < n → n ≤ 33 →
      (apply_guest_writes mem ((List.range n).map
          (fun j => GuestWrite.w (base + j * 3 + 1) ((base + 0x0100) % 65536 + j))))
          ((base + i * 3 + 1) % 65536) = ((base + 0x0100) % 65536 + i) % 65536 % 256 ∧
      (apply_guest_writes mem ((List.range n).map
          (fun j => GuestWrite.w (base + j * 3 + 1) ((base + 0x0100) % 65536 + j))))
          ((base + i * 3 + 2) % 65536) = (((base + 0x0100) % 65536 + i) % 65536) >>> 8 := by
  intro n
  induction n with
  | zero => omega
  | succ m ih =>
    intro mem i hi hn
    rw [List.range_succ, List.map_append, apply_guest_writes_append]
    simp only [List.map_cons, List.map_nil]
    simp only [apply_guest_writes, apply_guest_writes.x_lo, apply_guest_writes.x_hi]
    have hw2 : ((base + m * 3 + 1) % 65536 + 1) % 65536 = (base + m * 3 + 2) % 65536 := by
      omega
    rw [hw2]
    rcases Nat.lt_or_ge i m with h | h
    · have hne1 : (base + i * 3 + 1) % 65536 ≠ (base + m * 3 + 2) % 65536 := by omega
      have hne2 : (base + i * 3 + 1) % 65536 ≠ (base + m * 3 + 1) % 65536 := by omega
      have hne3 : (base + i * 3 + 2) % 65536 ≠ (base + m * 3 + 2) % 65536 := by omega
      have hne4 : (base + i * 3 + 2) % 65536 ≠ (base + m * 3 + 1) % 65536 := by omega
      rw [if_neg hne1, if_neg hne2, if_neg hne3, if_neg hne4]
      exact ih mem i h (by omega)
    · have hieq : i = m := by omega
      subst hieq
      have hne : (base + i * 3 + 1) % 65536 ≠ (base + i * 3 + 2) % 65536 := by omega
      refine ⟨?_, ?_⟩
      · rw [if_neg hne, if_pos rfl]
      · rw [if_pos rfl]

/-- C8: BIOS construction raises "BIOS jump table not found" if and only
if the byte at the discovered `jump_base` or the byte at `jump_base + 3`
differs from 0xC3; when both equal 0xC3, construction completes and the
jump-vector phase rewrites all 33 JP operands to point at
`stubs_base + i`.  (The constructor runs with `m_check_memory_accesses`
still off, which is the `hchk` hypothesis.) -/
theorem bios_construct_signature (hw : Hardware)
    (hchk : hw.check_memory_accesses = false) :
    ((∃ hw1, bios_construct hw = .error ("BIOS jump table not found", hw1)) ↔
      (hw.read_byte (discovered_base hw) ≠ 0xC3 ∨
        hw.read_byte (discovered_base hw + 3) ≠ 0xC3)) ∧
    (hw.read_byte (discovered_base hw) = 0xC3 ∧
        hw.read_byte (discovered_base hw + 3) = 0xC3 →
      (∃ r, bios_construct hw = .ok r) ∧
      ∃ hw1, perform_writes hw (jump_vector_writes (discovered_base hw)) = .ok hw1 ∧
        ∀ i, i < 33 →
          hw1.read_word (discovered_base hw + i * 3 + 1) =
            ((discovered_base hw + 0x0100) % 65536 + i) % 65536) := by
  have hbase : discovered_base hw < 65536 := Nat.mod_lt _ (by omega)
  have hok : ∀ ws, perform_writes hw ws = .ok { hw with mem := apply_guest_writes hw.mem ws } :=
    fun ws => perform_writes_unchecked ws hw hchk
  constructor
  · constructor
    · rintro ⟨hw1, herr⟩
      by_contra hgood
      push_neg at hgood
      rw [bios_construct] at herr
      rw [if_neg (by simp [hgood.1, hgood.2])] at herr
      rw [hok] at herr
      exact Except.noConfusion herr
    · intro hbad
      refine ⟨hw, ?_⟩
      have hcond : hw.read_byte (discovered_base hw + 0) ≠ 0xC3 ∨
          hw.read_byte (discovered_base hw + 3) ≠ 0xC3 := by
        rcases hbad with h | h
        · exact Or.inl (by simpa using h)
        · exact Or.inr h
      rw [bios_construct, if_pos hcond]
  · intro hsig
    refine ⟨?_, ?_⟩
    · rw [bios_construct, if_neg (by simp [hsig.1, hsig.2]), hok]
      exact ⟨_, rfl⟩
    · refine ⟨_, hok _, ?_⟩
      intro i hi
      have hv := apply_jump_vectors_read (discovered_base hw) 33 hw.mem i hi
        (by omega)
      rw [jump_vector_writes]
      show Hardware.read_word _ _ = _
      rw [Hardware.read_word]
      simp only
      have haddr2 : (discovered_base hw + i * 3 + 1 + 1) % 65536 =
          (discovered_base hw + i * 3 + 2) % 65536 := by omega
      rw [haddr2, hv.1, hv.2]
      have hvlt : ((discovered_base hw + 0x0100) % 65536 + i) % 65536 < 65536 :=
        Nat.mod_lt _ (by omega)
      have hhi : (((discovered_base hw + 0x0100) % 65536 + i) % 65536) >>> 8 < 256 := by
        rw [Nat.shiftRight_eq_div_pow]
        omega
      rw [Nat.mod_mod_of_dvd _ dvd_rfl, Nat.mod_eq_of_lt hhi]
      rw [lor_byte_shift _ _ (Nat.mod_lt _ (by omega))]
      rw [Nat.shiftRight_eq_div_pow]
      omega

/-- A hardware state holding a valid BIOS jump-table signature: the JP at
0x0001 targets 0xF203 (WBOOT), so the discovered base is 0xF200, and both
0xF200 and 0xF203 hold 0xC3. -/
def hwBios : Hardware where
  mem := fun a =>
    if a = 1 then 0x03
    else if a = 2 then 0xF2
    else if a = 0xF200 then 0xC3
    else if a = 0xF203 then 0xC3
    else 0
  watch_read := fun a => decide (a < 0x100)
  watch_write := fun a => decide (a < 0x100)
  enable_memory_checks := true
  check_memory_accesses := false
  bios := none

/-- Witness for C8 at the concrete state `hwBios`. -/
theorem bios_construct_signature_witness :
    (hwBios.check_memory_accesses = false ∧
      hwBios.read_byte (discovered_base hwBios) = 0xC3 ∧
      hwBios.read_byte (discovered_base hwBios + 3) = 0xC3) ∧
    ((∃ r, bios_construct hwBios = .ok r) ∧
      ∃ hw1, perform_writes hwBios (jump_vector_writes (discovered_base hwBios)) = .ok hw1 ∧
        ∀ i, i < 33 →
          hw1.read_word (discovered_base hwBios + i * 3 + 1) =
            ((discovered_base hwBios + 0x0100) % 65536 + i) % 65536) :=
  ⟨⟨rfl, by decide, by decide⟩,
    (bios_construct_signature hwBios rfl).2 ⟨by decide, by decide⟩⟩

/-! ## Block instructions (`src/core/processor.cpp`, cases LDIR_LDDR and
CPIR_CPDR)

These cases are entered after both opcode bytes (0xED plus the opcode)
have been fetched, each charging 4 cycles and bumping R once — hence the
`r -= 2; elapsed_cycles -= 8;` prologue that the loop then re-adds on
every iteration.  `d` is +1 for LDIR/CPIR and -1 for LDDR/CPDR.  Guest
memory is accessed through the `IMemory` interface, modelled as a plain
byte store as in the interrupt section. -/

/-- `SZYX_FLAGS_TABLE[x]`.  Modelled from the spec: the file defining the
precomputed flag tables is not under src/; per the spec the entry holds
"S, Z, Y, X from the byte `x`" — the sign bit, the zero flag for `x = 0`,
and the undocumented Y and X flags copied from bits 5 and 3 of the
byte. -/
def SZYX_FLAGS_TABLE (x : Nat) : Nat :=
  (x % 256 &&& 0x80) ||| (if x % 256 = 0 then 0x40 else 0) |||
    (x % 256 &&& 0x20) ||| (x % 256 &&& 0x08)

/-- The registers and counters a block instruction touches, at entry to
the opcode case. -/
structure BlockState where
  mem : Nat → Nat
  a : Nat
  f : Nat
  bc : Nat
  de : Nat
  hl : Nat
  pc : Nat
  r : Nat
  cycles : Nat

/-- How the bounded loop of a block instruction ended: by running the
loop to its own exit (`normal`), by hitting the cycle budget (`paused`,
after `pc -= 2` so the instruction re-enters), or — never, as proved
below — by fuel exhaustion of the model. -/
inductive BlockExit where
  | normal : BlockExit
  | paused : BlockExit
  | fuel : BlockExit
deriving DecidableEq

/-- Loop-carried state for LDIR/LDDR. -/
structure LdSt where
  mem : Nat → Nat
  bc : Nat
  de : Nat
  hl : Nat
  pc : Nat
  r : Nat
  cycles : Nat
  f : Nat
  n : Nat
  iters : Nat

/-- The `for (;;)` loop of the LDIR_LDDR case: copy one byte, step the
pointers, decrement BC; charge 21 cycles and re-test the budget, or
charge 16 and exit when BC reaches zero; on budget exhaustion set P/V,
step PC back over the two opcode bytes and exit. -/
def ldir_loop (d_inc unbounded : Bool) (max_cycles : Nat) :
    Nat → LdSt → LdSt × BlockExit
  | 0, s => (s, .fuel)
  | fuel + 1, s =>
    let r1 := (s.r + 2) % 256
    let n := s.mem (s.hl % 65536) % 256
    let mem1 := fun i => if i = s.de % 65536 then n else s.mem i
    let hl1 := if d_inc then (s.hl + 1) % 65536 else (s.hl + 65535) % 65536
    let de1 := if d_inc then (s.de + 1) % 65536 else (s.de + 65535) % 65536
    let bc1 := (s.bc + 65535) % 65536
    if bc1 ≠ 0 then
      let s1 : LdSt :=
        { mem := mem1
          bc := bc1
          de := de1
          hl := hl1
          pc := s.pc
          r := r1
          cycles := s.cycles + 21
          f := s.f
          n := n
          iters := s.iters + 1 }
      if unbounded || s1.cycles < max_cycles || max_cycles = 0 then
        ldir_loop d_inc unbounded max_cycles fuel s1
      else
        ({ s1 with f := s1.f ||| 0x04, pc := (s1.pc + 65534) % 65536 }, .paused)
    else
      let s2 : LdSt :=
        { mem := mem1
          bc := bc1
          de := de1
          hl := hl1
          pc := s.pc
          r := r1
          cycles := s.cycles + 16
          f := s.f
          n := n
          iters := s.iters + 1 }
      (s2, .normal)

/-- The LDIR_LDDR case of `Processor::emulate`: mask F to S/Z/C, undo the
two fetch charges, run the loop, write the registers back and fold the
copied byte plus A into the undocumented X/Y flags.  Also returns how the
loop exited and how many iterations ran. -/
def ldir_lddr (is_ldir unbounded : Bool) (max_cycles : Nat) (st : BlockState) :
    BlockState × BlockExit × Nat :=
  let s0 : LdSt :=
    { mem := st.mem
      bc := st.bc % 65536
      de := st.de % 65536
      hl := st.hl % 65536
      pc := st.pc % 65536
      r := (st.r % 256 + 254) % 256
      cycles := st.cycles - 8
      f := st.f % 256 &&& 0xC1
      n := 0
      iters := 0 }
  let res := ldir_loop is_ldir unbounded max_cycles 65536 s0
  let s1 := res.1
  let n1 := (s1.n + st.a % 256) % 256
  let f1 := s1.f ||| (n1 &&& 0x08) ||| ((n1 <<< 4) &&& 0x20)
  let stF :=
    { st with
      mem := s1.mem
      bc := s1.bc
      de := s1.de
      hl := s1.hl
      pc := s1.pc
      r := s1.r
      cycles := s1.cycles
      f := f1 }
  (stF, res.2, s1.iters)

/-- Loop-carried state for CPIR/CPDR. -/
structure CpSt where
  bc : Nat
  hl : Nat
  pc : Nat
  r : Nat
  cycles : Nat
  n : Nat
  z : Nat
  iters : Nat

/-- The `for (;;)` loop of the CPIR_CPDR case: compare one byte, step HL,
decrement BC; continue while BC is nonzero and the comparison did not
match, charging 21 cycles per continuing iteration and 16 on exit; on
budget exhaustion step PC back and exit. -/
def cpir_loop (a : Nat) (mem : Nat → Nat) (d_inc unbounded : Bool) (max_cycles : Nat) :
    Nat → CpSt → CpSt × BlockExit
  | 0, s => (s, .fuel)
  | fuel + 1, s =>
    let r1 := (s.r + 2) % 256
    let n := mem (s.hl % 65536) % 256
    let z := (a + 256 - n) % 256
    let hl1 := if d_inc then (s.hl + 1) % 65536 else (s.hl + 65535) % 65536
    let bc1 := (s.bc + 65535) % 65536
    if bc1 ≠ 0 ∧ z ≠ 0 then
      let s1 : CpSt :=
        { bc := bc1
          hl := hl1
          pc := s.pc
          r := r1
          cycles := s.cycles + 21
          n := n
          z := z
          iters := s.iters + 1 }
      if unbounded || s1.cycles < max_cycles || max_cycles = 0 then
        cpir_loop a mem d_inc unbounded max_cycles fuel s1
      else
        ({ s1 with pc := (s1.pc + 65534) % 65536 }, .paused)
    else
      let s2 : CpSt :=
        { bc := bc1
          hl := hl1
          pc := s.pc
          r := r1
          cycles := s.cycles + 16
          n := n
          z := z
          iters := s.iters + 1 }
      (s2, .normal)

/-- The CPIR_CPDR case of `Processor::emulate`: run the loop, write HL
and BC back, and assemble F from the final comparison (half-carry from
`a ^ n ^ z`, undocumented Y/X from `z` minus the half-carry, S/Z from the
flags table, P/V from BC nonzero, N set, C preserved). -/
def cpir_cpdr (is_cpir unbounded : Bool) (max_cycles : Nat) (st : BlockState) :
    BlockState × BlockExit × Nat :=
  let a := st.a % 256
  let s0 : CpSt :=
    { bc := st.bc % 65536
      hl := st.hl % 65536
      pc := st.pc % 65536
      r := (st.r % 256 + 254) % 256
      cycles := st.cycles - 8
      n := 0
      z := 0
      iters := 0 }
  let res := cpir_loop a st.mem is_cpir unbounded max_cycles 65536 s0
  let s1 := res.1
  let f0 := (a ^^^ s1.n ^^^ s1.z) &&& 0x10
  let n2 := (s1.z + 256 - (f0 >>> 4)) % 256
  let f1 := f0 ||| ((n2 <<< 4) &&& 0x20) ||| (n2 &&& 0x08)
  let f2 := f1 ||| (SZYX_FLAGS_TABLE s1.z &&& 0xC0)
  let f3 := f2 ||| (if s1.bc ≠ 0 then 0x04 else 0)
  let f4 := f3 ||| 0x02 ||| (st.f % 256 &&& 0x01)
  let stF :=
    { st with
      bc := s1.bc
      hl := s1.hl
      pc := s1.pc
      r := s1.r
      cycles := s1.cycles
      f := f4 }
  (stF, res.2, s1.iters)

/-- What holds of an LDIR/LDDR loop run started from `s`, by exit kind. -/
def ldir_post (s : LdSt) (out : LdSt × BlockExit) : Prop :=
  out.2 ≠ .fuel ∧
  (out.2 = .normal →
    out.1.bc = 0 ∧ out.1.f = s.f ∧ out.1.pc = s.pc ∧ s.iters < out.1.iters ∧
    out.1.cycles = s.cycles + 21 * (out.1.iters - s.iters - 1) + 16) ∧
  (out.2 = .paused →
    out.1.f = s.f ||| 0x04 ∧ out.1.pc = (s.pc + 65534) % 65536 ∧
    out.1.bc ≠ 0 ∧ s.iters < out.1.iters ∧
    out.1.cycles = s.cycles + 21 * (out.1.iters - s.iters))

/-- Transfer an `ldir_post` across one already-charged iteration. -/
theorem ldir_post_mono (s s1 : LdSt) (out : LdSt × BlockExit)
    (hf : s1.f = s.f) (hpc : s1.pc = s.pc) (hit : s1.iters = s.iters + 1)
    (hcy : s1.cycles = s.cycles + 21) :
    ldir_post s1 out → ldir_post s out := by
  rintro ⟨h1, h2, h3⟩
  refine ⟨h1, ?_, ?_⟩
  · intro h
    obtain ⟨a, b, c, d, e⟩ := h2 h
    exact ⟨a, by rw [b, hf], by rw [c, hpc], by omega, by rw [e, hcy]; omega⟩
  · intro h
    obtain ⟨a, b, c, d, e⟩ := h3 h
    exact ⟨by rw [a, hf], by rw [b, hpc], c, by omega, by rw [e, hcy]; omega⟩

/-- The LDIR/LDDR loop, given fuel at least the number of decrements BC
can need, never exhausts its fuel, and satisfies the exit contract. -/
theorem ldir_loop_spec (d_inc unbounded : Bool) (max_cycles : Nat) :
    ∀ (fuel : Nat) (s : LdSt), s.bc < 65536 →
      (if s.bc = 0 then 65536 else s.bc) ≤ fuel →
      ldir_post s (ldir_loop d_inc unbounded max_cycles fuel s) := by
  intro fuel
  induction fuel with
  | zero =>
    intro s h1 h2
    by_cases hbc : s.bc = 0 <;> simp [hbc] at h2 <;> omega
  | succ fuel ih =>
    intro s h1 h2
    simp only [ldir_loop]
    by_cases hbc1 : (s.bc + 65535) % 65536 ≠ 0
    · rw [if_pos hbc1]
      cases hcond : (unbounded || decide (s.cycles + 21 < max_cycles) ||
          decide (max_cycles = 0)) with
      | true =>
        rw [if_pos rfl]
        have harg : (if (s.bc + 65535) % 65536 = 0 then 65536
            else (s.bc + 65535) % 65536) ≤ fuel := by
          rw [if_neg hbc1]
          by_cases hbc : s.bc = 0
          · rw [if_pos hbc] at h2
            omega
          · rw [if_neg hbc] at h2
            omega
        let s1 : LdSt :=
          ⟨(fun i => if i = s.de % 65536 then s.mem (s.hl % 65536) % 256 else s.mem i),
            (s.bc + 65535) % 65536,
            (if d_inc then (s.de + 1) % 65536 else (s.de + 65535) % 65536),
            (if d_inc then (s.hl + 1) % 65536 else (s.hl + 65535) % 65536),
            s.pc, (s.r + 2) % 256, s.cycles + 21, s.f,
            s.mem (s.hl % 65536) % 256, s.iters + 1⟩
        exact ldir_post_mono s s1 _ rfl rfl rfl rfl
          (ih s1 (Nat.mod_lt _ (by omega)) harg)
      | false =>
        rw [if_neg (by simp)]
        refine ⟨by simp, by intro h; exact absurd h (by simp), ?_⟩
        intro _
        refine ⟨rfl, rfl, hbc1, ?_, ?_⟩
        · show s.iters < s.iters + 1
          omega
        · show s.cycles + 21 = s.cycles + 21 * (s.iters + 1 - s.iters)
          omega
    · rw [if_neg hbc1]
      push_neg at hbc1
      refine ⟨by simp, ?_, by intro h; exact absurd h (by simp)⟩
      intro _
      refine ⟨hbc1, rfl, rfl, ?_, ?_⟩
      · show s.iters < s.iters + 1
        omega
      · show s.cycles + 16 = s.cycles + 21 * (s.iters + 1 - s.iters - 1) + 16
        omega

/-- What holds of a CPIR/CPDR loop run started from `s`, by exit kind. -/
def cpir_post (s : CpSt) (out : CpSt × BlockExit) : Prop :=
  out.2 ≠ .fuel ∧
  (out.2 = .normal →
    out.1.pc = s.pc ∧ s.iters < out.1.iters ∧
    out.1.cycles = s.cycles + 21 * (out.1.iters - s.iters - 1) + 16) ∧
  (out.2 = .paused →
    out.1.pc = (s.pc + 65534) % 65536 ∧ out.1.bc ≠ 0 ∧ s.iters < out.1.iters ∧
    out.1.cycles = s.cycles + 21 * (out.1.iters - s.iters))

/-- Transfer a `cpir_post` across one already-charged iteration. -/
theorem cpir_post_mono (s s1 : CpSt) (out : CpSt × BlockExit)
    (hpc : s1.pc = s.pc) (hit : s1.iters = s.iters + 1)
    (hcy : s1.cycles = s.cycles + 21) :
    cpir_post s1 out → cpir_post s out := by
  rintro ⟨h1, h2, h3⟩
  refine ⟨h1, ?_, ?_⟩
  · intro h
    obtain ⟨a, b, c⟩ := h2 h
    exact ⟨by rw [a, hpc], by omega, by rw [c, hcy]; omega⟩
  · intro h
    obtain ⟨a, b, c, d⟩ := h3 h
    exact ⟨by rw [a, hpc], b, by omega, by rw [d, hcy]; omega⟩

/-- The CPIR/CPDR loop never exhausts adequate fuel and satisfies the
exit contract (it can only exit earlier than LDIR's loop, on a match). -/
theorem cpir_loop_spec (a : Nat) (mem : Nat → Nat) (d_inc unbounded : Bool)
    (max_cycles : Nat) :
    ∀ (fuel : Nat) (s : CpSt), s.bc < 65536 →
      (if s.bc = 0 then 65536 else s.bc) ≤ fuel →
      cpir_post s (cpir_loop a mem d_inc unbounded max_cycles fuel s) := by
  intro fuel
  induction fuel with
  | zero =>
    intro s h1 h2
    by_cases hbc : s.bc = 0 <;> simp [hbc] at h2 <;> omega
  | succ fuel ih =>
    intro s h1 h2
    simp only [cpir_loop]
    by_cases hgo : (s.bc + 65535) % 65536 ≠ 0 ∧
        (a + 256 - mem (s.hl % 65536) % 256) % 256 ≠ 0
    · rw [if_pos hgo]
      cases hcond : (unbounded || decide (s.cycles + 21 < max_cycles) ||
          decide (max_cycles = 0)) with
      | true =>
        rw [if_pos rfl]
        have harg : (if (s.bc + 65535) % 65536 = 0 then 65536
            else (s.bc + 65535) % 65536) ≤ fuel := by
          rw [if_neg hgo.1]
          by_cases hbc : s.bc = 0
          · rw [if_pos hbc] at h2
            omega
          · rw [if_neg hbc] at h2
            omega
        let s1 : CpSt :=
          ⟨(s.bc + 65535) % 65536,
            (if d_inc then (s.hl + 1) % 65536 else (s.hl + 65535) % 65536),
            s.pc, (s.r + 2) % 256, s.cycles + 21, mem (s.hl % 65536) % 256,
            (a + 256 - mem (s.hl % 65536) % 256) % 256, s.iters + 1⟩
        exact cpir_post_mono s s1 _ rfl rfl rfl
          (ih s1 (Nat.mod_lt _ (by omega)) harg)
      | false =>
        rw [if_neg (by simp)]
        refine ⟨by simp, by intro h; exact absurd h (by simp), ?_⟩
        intro _
        refine ⟨rfl, hgo.1, ?_, ?_⟩
        · show s.iters < s.iters + 1
          omega
        · show s.cycles + 21 = s.cycles + 21 * (s.iters + 1 - s.iters)
          omega
    · rw [if_neg hgo]
      refine ⟨by simp, ?_, by intro h; exact absurd h (by simp)⟩
      intro _
      refine ⟨rfl, ?_, ?_⟩
      · show s.iters < s.iters + 1
        omega
      · show s.cycles + 16 = s.cycles + 21 * (s.iters + 1 - s.iters - 1) + 16
        omega

/-- Bit 2 (P/V) of `x &&& m` is clear whenever it is clear in the mask. -/
theorem and_and_four_eq_zero (x m : Nat) (hm : m &&& 4 = 0) :
    (x &&& m) &&& 4 = 0 := by
  rw [Nat.and_assoc, hm, Nat.and_zero]

/-- `&&& 4` distributes over `|||`. -/
theorem lor_and_four (x y : Nat) : (x ||| y) &&& 4 = (x &&& 4) ||| (y &&& 4) :=
  Nat.and_distrib_right x y 4

set_option maxRecDepth 8000 in
/-- C3 (amended): a block instruction executed under a cycle bound either
runs its loop to the end — for LDIR/LDDR that means BC = 0; for CPIR/CPDR,
when the run ends with BC = 0 — charging 16 cycles on the final iteration
(21 on each earlier one), leaving PC on the next instruction and P/V
clear; or, when continuing would exceed `max_cycles`, it exits after a
21-cycle iteration with PC stepped back by 2 over the two opcode bytes
and P/V set, so the next `emulate` call re-enters the same instruction.
The model's fuel is never exhausted.  (The claim's "with Z set" on normal
exit does not hold — see the counterexample; the loops leave S, Z and C
masked in from the previous F for LDIR/LDDR, and CPIR/CPDR set Z from the
final comparison only.) -/
theorem block_instructions_cycle_bound (is_inc unbounded : Bool) (max_cycles : Nat)
    (st : BlockState) (hcy : 8 ≤ st.cycles) :
    ((ldir_lddr is_inc unbounded max_cycles st).2.1 ≠ .fuel ∧
      ((ldir_lddr is_inc unbounded max_cycles st).2.1 = .normal →
        (ldir_lddr is_inc unbounded max_cycles st).1.bc = 0 ∧
        (ldir_lddr is_inc unbounded max_cycles st).1.cycles =
          st.cycles - 8 + 21 * ((ldir_lddr is_inc unbounded max_cycles st).2.2 - 1) + 16 ∧
        (ldir_lddr is_inc unbounded max_cycles st).1.pc = st.pc % 65536 ∧
        (ldir_lddr is_inc unbounded max_cycles st).1.f &&& 0x04 = 0) ∧
      ((ldir_lddr is_inc unbounded max_cycles st).2.1 = .paused →
        (ldir_lddr is_inc unbounded max_cycles st).1.pc =
          (st.pc % 65536 + 65534) % 65536 ∧
        (ldir_lddr is_inc unbounded max_cycles st).1.f &&& 0x04 = 0x04 ∧
        (ldir_lddr is_inc unbounded max_cycles st).1.cycles =
          st.cycles - 8 + 21 * (ldir_lddr is_inc unbounded max_cycles st).2.2)) ∧
    ((cpir_cpdr is_inc unbounded max_cycles st).2.1 ≠ .fuel ∧
      ((cpir_cpdr is_inc unbounded max_cycles st).2.1 = .normal →
        (cpir_cpdr is_inc unbounded max_cycles st).1.bc = 0 →
        (cpir_cpdr is_inc unbounded max_cycles st).1.cycles =
          st.cycles - 8 + 21 * ((cpir_cpdr is_inc unbounded max_cycles st).2.2 - 1) + 16 ∧
        (cpir_cpdr is_inc unbounded max_cycles st).1.pc = st.pc % 65536 ∧
        (cpir_cpdr is_inc unbounded max_cycles st).1.f &&& 0x04 = 0) ∧
      ((cpir_cpdr is_inc unbounded max_cycles st).2.1 = .paused →
        (cpir_cpdr is_inc unbounded max_cycles st).1.pc =
          (st.pc % 65536 + 65534) % 65536 ∧
        (cpir_cpdr is_inc unbounded max_cycles st).1.f &&& 0x04 = 0x04 ∧
        (cpir_cpdr is_inc unbounded max_cycles st).1.cycles =
          st.cycles - 8 + 21 * (cpir_cpdr is_inc unbounded max_cycles st).2.2)) := by
  have hbound : ∀ b : Nat, b < 65536 → (if b = 0 then 65536 else b) ≤ 65536 := by
    intro b hb
    by_cases h : b = 0 <;> simp [h] <;> omega
  have hY : ∀ x : Nat, (x &&& 0x20) &&& 4 = 0 :=
    fun x => and_and_four_eq_zero x _ (by decide)
  have hX : ∀ x : Nat, (x &&& 0x08) &&& 4 = 0 :=
    fun x => and_and_four_eq_zero x _ (by decide)
  have hH : ∀ x : Nat, (x &&& 0x10) &&& 4 = 0 :=
    fun x => and_and_four_eq_zero x _ (by decide)
  have hSZ : ∀ x : Nat, (x &&& 0xC0) &&& 4 = 0 :=
    fun x => and_and_four_eq_zero x _ (by decide)
  have hSZC : ∀ x : Nat, (x &&& 0xC1) &&& 4 = 0 :=
    fun x => and_and_four_eq_zero x _ (by decide)
  have hCa : ∀ x : Nat, (x &&& 0x01) &&& 4 = 0 :=
    fun x => and_and_four_eq_zero x _ (by decide)
  have h24 : (2 : Nat) &&& 4 = 0 := by decide
  have h44 : (4 : Nat) &&& 4 = 4 := by decide
  constructor
  · simp only [ldir_lddr]
    obtain ⟨hnf, hnorm, hpause⟩ := ldir_loop_spec is_inc unbounded max_cycles 65536
      ⟨st.mem, st.bc % 65536, st.de % 65536, st.hl % 65536, st.pc % 65536,
        (st.r % 256 + 254) % 256, st.cycles - 8, st.f % 256 &&& 0xC1, 0, 0⟩
      (Nat.mod_lt _ (by omega)) (hbound _ (Nat.mod_lt _ (by omega)))
    refine ⟨hnf, ?_, ?_⟩
    · intro hx
      obtain ⟨hbc, hf, hpc, hit, hcyc⟩ := hnorm hx
      rw [Nat.sub_zero] at hcyc
      refine ⟨hbc, hcyc, hpc, ?_⟩
      rw [lor_and_four, lor_and_four, hf]
      rw [hSZC, hX, hY]
      simp
    · intro hx
      obtain ⟨hf, hpc, hbc, hit, hcyc⟩ := hpause hx
      rw [Nat.sub_zero] at hcyc
      refine ⟨hpc, ?_, hcyc⟩
      rw [lor_and_four, lor_and_four, hf, lor_and_four]
      rw [hSZC, hX, hY, h44]
      simp
  · simp only [cpir_cpdr]
    obtain ⟨hnf, hnorm, hpause⟩ := cpir_loop_spec (st.a % 256) st.mem is_inc unbounded
      max_cycles 65536
      ⟨st.bc % 65536, st.hl % 65536, st.pc % 65536, (st.r % 256 + 254) % 256,
        st.cycles - 8, 0, 0, 0⟩
      (Nat.mod_lt _ (by omega)) (hbound _ (Nat.mod_lt _ (by omega)))
    refine ⟨hnf, ?_, ?_⟩
    · intro hx hbc0
      obtain ⟨hpc, hit, hcyc⟩ := hnorm hx
      rw [Nat.sub_zero] at hcyc
      refine ⟨hcyc, hpc, ?_⟩
      simp only [lor_and_four]
      rw [hH, hX, hY, hSZ, hCa, h24]
      rw [if_neg (by simpa using hbc0)]
      simp
    · intro hx
      obtain ⟨hpc, hbc, hit, hcyc⟩ := hpause hx
      rw [Nat.sub_zero] at hcyc
      refine ⟨hpc, ?_, hcyc⟩
      simp only [lor_and_four]
      rw [hH, hX, hY, hSZ, hCa, h24]
      rw [if_pos hbc]
      rw [h44]
      simp

/-- A concrete machine state (BC = 1, one loop iteration) for the
block-instruction theorem. -/
def blockWitnessState : BlockState :=
  { mem := fun _ => 0
    a := 0
    f := 0xFF
    bc := 1
    de := 2
    hl := 3
    pc := 0x100
    r := 2
    cycles := 8 }

/-- Witness: the block-instruction theorem at a concrete state with a
generous cycle budget, where both loops exit normally. -/
theorem block_instructions_cycle_bound_witness :
    8 ≤ blockWitnessState.cycles ∧
    (((ldir_lddr true false 100 blockWitnessState).2.1 ≠ .fuel ∧
      ((ldir_lddr true false 100 blockWitnessState).2.1 = .normal →
        (ldir_lddr true false 100 blockWitnessState).1.bc = 0 ∧
        (ldir_lddr true false 100 blockWitnessState).1.cycles =
          blockWitnessState.cycles - 8 +
            21 * ((ldir_lddr true false 100 blockWitnessState).2.2 - 1) + 16 ∧
        (ldir_lddr true false 100 blockWitnessState).1.pc =
          blockWitnessState.pc % 65536 ∧
        (ldir_lddr true false 100 blockWitnessState).1.f &&& 0x04 = 0) ∧
      ((ldir_lddr true false 100 blockWitnessState).2.1 = .paused →
        (ldir_lddr true false 100 blockWitnessState).1.pc =
          (blockWitnessState.pc % 65536 + 65534) % 65536 ∧
        (ldir_lddr true false 100 blockWitnessState).1.f &&& 0x04 = 0x04 ∧
        (ldir_lddr true false 100 blockWitnessState).1.cycles =
          blockWitnessState.cycles - 8 +
            21 * (ldir_lddr true false 100 blockWitnessState).2.2)) ∧
    ((cpir_cpdr true false 100 blockWitnessState).2.1 ≠ .fuel ∧
      ((cpir_cpdr true false 100 blockWitnessState).2.1 = .normal →
        (cpir_cpdr true false 100 blockWitnessState).1.bc = 0 →
        (cpir_cpdr true false 100 blockWitnessState).1.cycles =
          blockWitnessState.cycles - 8 +
            21 * ((cpir_cpdr true false 100 blockWitnessState).2.2 - 1) + 16 ∧
        (cpir_cpdr true false 100 blockWitnessState).1.pc =
          blockWitnessState.pc % 65536 ∧
        (cpir_cpdr true false 100 blockWitnessState).1.f &&& 0x04 = 0) ∧
      ((cpir_cpdr true false 100 blockWitnessState).2.1 = .paused →
        (cpir_cpdr true false 100 blockWitnessState).1.pc =
          (blockWitnessState.pc % 65536 + 65534) % 65536 ∧
        (cpir_cpdr true false 100 blockWitnessState).1.f &&& 0x04 = 0x04 ∧
        (cpir_cpdr true false 100 blockWitnessState).1.cycles =
          blockWitnessState.cycles - 8 +
            21 * (cpir_cpdr true false 100 blockWitnessState).2.2))) :=
  ⟨by decide, block_instructions_cycle_bound true false 100 blockWitnessState (by decide)⟩

/-- A state on which LDIR exits normally yet Z stays clear: F starts at
0, so the S/Z/C mask carries Z = 0 through the whole copy. -/
def blockCEx : BlockState :=
  { mem := fun _ => 0
    a := 0
    f := 0
    bc := 1
    de := 2
    hl := 3
    pc := 0x100
    r := 2
    cycles := 8 }

/-- C3 counterexample: LDIR runs its loop to BC = 0 (the normal exit,
charging 16 cycles on the final iteration), yet bit 6 (Z) of the
resulting F is clear, refuting the claim's "exits ... with Z set" — the
code masks F with S/Z/C from the previous instruction and never sets Z. -/
theorem ldir_normal_exit_z_counterexample :
    (ldir_lddr true false 100 blockCEx).2.1 = .normal ∧
    (ldir_lddr true false 100 blockCEx).1.cycles = 16 ∧
    (ldir_lddr true false 100 blockCEx).1.f &&& 0x40 = 0 := by
  refine ⟨rfl, rfl, rfl⟩

end ZCPM
